import Mathlib

/-!
# rpi_export: the mailbox property protocol

A shallow embedding of `pkg/ioctl/ioctl.go` and `pkg/mbox/mailbox.go`.

* `uint32` words are natural numbers; a reduction modulo `2 ^ 32` is written
  wherever the source arithmetic can wrap.
* A Go slice is a `Slice`: the backing array from the slice's first element
  up to its capacity, together with its length.  Indexing is checked against
  the length, slice expressions against the capacity, as the Go runtime does.
* A run-time panic of a pure accessor is `none`; functions that return
  `(value, error)` produce an `Outcome`, which tells a returned error from a
  panic.
-/

namespace Ioctl

/-! ## pkg/ioctl/ioctl.go -/

def iocNrbits : Nat := 8
def iocTypebits : Nat := 8
def iocSizebits : Nat := 14
def iocDirbits : Nat := 2

def iocNrshift : Nat := 0
def iocTypeshift : Nat := iocNrshift + iocNrbits
def iocSizeshift : Nat := iocTypeshift + iocTypebits
def iocDirshift : Nat := iocSizeshift + iocSizebits

def iocNone : Nat := 0
def iocWrite : Nat := 1
def iocRead : Nat := 2

/-- The function `ioc` over a `uint` of `w` bits (32 or 64 in Go): every shift
is reduced modulo `2 ^ w`. -/
def ioc (w dir typ nr size : Nat) : Nat :=
  ((dir <<< iocDirshift) % 2 ^ w) |||
    ((typ <<< iocTypeshift) % 2 ^ w) |||
    ((nr <<< iocNrshift) % 2 ^ w) |||
    ((size <<< iocSizeshift) % 2 ^ w)

/-- The function `IO` of the source; the bare name is taken in Lean. -/
def IO_ (w typ nr : Nat) : Nat := ioc w iocNone typ nr 0

def IOR (w typ nr size : Nat) : Nat := ioc w iocRead typ nr size

def IOW (w typ nr size : Nat) : Nat := ioc w iocWrite typ nr size

def IOWR (w typ nr size : Nat) : Nat := ioc w (iocRead ||| iocWrite) typ nr size

end Ioctl

namespace Mbox

/-! ## Go slices of `uint32` -/

/-- A Go slice of `uint32`: `data` holds the backing array from the first
element of the slice up to its capacity, `len` is `len(s)`. -/
structure Slice where
  data : List Nat
  len : Nat
deriving DecidableEq, Repr

namespace Slice

/-- The capacity `cap(s)`. -/
def cap (s : Slice) : Nat := s.data.length

/-- The slice is well formed when `len(s) ≤ cap(s)`. -/
def WF (s : Slice) : Prop := s.len ≤ s.data.length

instance (s : Slice) : Decidable s.WF := by unfold WF; infer_instance

/-- The elements `s[0], …, s[len(s)-1]`. -/
def words (s : Slice) : List Nat := s.data.take s.len

/-- A slice literal or freshly made slice: `cap = len`. -/
def ofList (l : List Nat) : Slice := ⟨l, l.length⟩

/-- The nil slice. -/
def nil : Slice := ⟨[], 0⟩

/-- The index expression `s[i]`: panics unless `i < len(s)`. -/
def index (s : Slice) (i : Nat) : Option Nat :=
  if i < s.len then s.data[i]? else none

/-- The slice expression `s[lo:hi]`: panics unless `lo ≤ hi ≤ cap(s)`. -/
def slice (s : Slice) (lo hi : Nat) : Option Slice :=
  if lo ≤ hi ∧ hi ≤ s.cap then some ⟨s.data.drop lo, hi - lo⟩ else none

/-- The slice expression `s[lo:]`, that is `s[lo:len(s)]`. -/
def sliceFrom (s : Slice) (lo : Nat) : Option Slice := s.slice lo s.len

/-- The slice expression `s[:hi]`. -/
def sliceTo (s : Slice) (hi : Nat) : Option Slice := s.slice 0 hi

/-- The assignment `s[i] = v`: panics unless `i < len(s)`. -/
def set (s : Slice) (i v : Nat) : Option Slice :=
  if i < s.len then some { s with data := s.data.set i v } else none

/-- Overwrite the elements from index `off` on with `src`, stopping at the end
of either list. -/
def overwrite : List Nat → Nat → List Nat → List Nat
  | [], _, _ => []
  | d :: ds, 0, [] => d :: ds
  | _ :: ds, 0, x :: xs => x :: overwrite ds 0 xs
  | d :: ds, off + 1, src => d :: overwrite ds off src

/-- The call `copy(s[off:], src)`: panics unless `off ≤ len(s)`, and copies
`min(len(s) - off, len(src))` words. -/
def copyFrom (s : Slice) (off : Nat) (src : List Nat) : Option Slice :=
  if off ≤ s.len then
    some { s with data := overwrite s.data off (src.take (s.len - off)) }
  else none

end Slice

/-! ## pkg/mbox/mailbox.go: constants -/

def RequestCodeDefault : Nat := 0x00000000

def TagGetFirmwareRevision : Nat := 0x00000001
def TagGetBoardModel : Nat := 0x00010001
def TagGetBoardRevision : Nat := 0x00010002
def TagGetPowerState : Nat := 0x00020001

def replySuccess : Nat := 0x80000000
def replyFail : Nat := 0x80000001

/-- The errors that the package returns. -/
inductive Err where
  /-- `ErrNotImplemented` -/
  | notImplemented
  /-- `ErrRequestBuffer` -/
  | requestBuffer
  /-- `fmt.Errorf("vcio: tag buffer is too small")` -/
  | tagBufferTooSmall
  /-- `fmt.Errorf("vcio: unexpected response code: 0x%08x", code)` -/
  | unexpectedResponseCode (code : Nat)
  /-- An error of the operating system, with its `errno`. -/
  | errno (e : Nat)
  /-- The value `os.ErrNotExist` of the standard library. -/
  | osErrNotExist
  /-- A `*os.PathError` that wraps the given `errno`: what `os.OpenFile`
  returns when it fails. -/
  | pathError (e : Nat)
deriving DecidableEq, Repr

/-- What a call of a function with result `(α, error)` does: it returns a
value and a nil error, returns an error (and the zero value), or panics at run
time (index or slice bounds out of range). -/
inductive Outcome (α : Type) where
  | ok (a : α)
  | error (e : Err)
  | panic
deriving DecidableEq, Repr

/-- The value `mbIoctl`, for a `uint` of `w` bits and a pointer of `p` bytes
(`unsafe.Sizeof(new(byte))`); `'d'` is 100. -/
def mbIoctl (w p : Nat) : Nat := Ioctl.IOWR w 100 0 p

/-! ## Tags -/

/-- The type `Tag` is `[]uint32`. -/
abbrev Tag := Slice

def EndTag : Tag := Slice.ofList [0]

namespace Tag

/-- The method `IsEnd`: `len(t) == 1 && t[0] == 0`; the conjunction is
evaluated left to right, so `t[0]` is only read when it exists. -/
def IsEnd (t : Tag) : Bool := t.len == 1 && t.index 0 == some 0

/-- The method `IsValid`.  The sum `3+t[1]/4` is at most `3 + (2^32-1)/4`, so
it wraps neither as a `uint32` nor when converted to `int`. -/
def IsValid (t : Tag) : Option Bool :=
  if t.len = 0 then some false
  else if t.len = 1 then some t.IsEnd
  else if t.len < 3 then some false
  else match t.index 1 with
    | none => none
    | some c => if t.len ≠ 3 + c / 4 then some false else some true

def ID (t : Tag) : Option Nat :=
  match t.IsValid with
  | none => none
  | some false => some 0
  | some true => t.index 0

def Cap (t : Tag) : Option Nat :=
  match t.IsValid with
  | none => none
  | some false => some 0
  | some true => t.index 1

def IsResponse (t : Tag) : Option Bool :=
  match t.IsValid with
  | none => none
  | some false => some false
  | some true =>
    match t.index 2 with
    | none => none
    | some l => some ((l &&& 0x80000000) == 0x80000000)

/-- The method `Len`: `!t.IsValid() || !t.IsResponse()` is evaluated left to
right. -/
def Len (t : Tag) : Option Nat :=
  match t.IsValid with
  | none => none
  | some false => some 0
  | some true =>
    match t.IsResponse with
    | none => none
    | some false => some 0
    | some true =>
      match t.index 2 with
      | none => none
      | some l => some (l &&& 0x7FFFFFFF)

/-- The method `Value`: `t[3 : 3+t.Len()/4]`; an invalid tag gives the nil
slice. -/
def Value (t : Tag) : Option Slice :=
  match t.IsValid with
  | none => none
  | some false => some Slice.nil
  | some true =>
    match t.Len with
    | none => none
    | some n => t.slice 3 (3 + n / 4)

end Tag

/-- The function `ReadTag`.  `b[1]/4` is below `2^30`, so `3 + int(b[1]/4)`
does not wrap. -/
def ReadTag (b : Slice) : Outcome Tag :=
  if 0 < b.len ∧ b.index 0 = some 0 then .ok EndTag
  else if b.len < 3 then .error .tagBufferTooSmall
  else match b.index 1 with
    | none => .panic
    | some c =>
      let sz := 3 + c / 4
      if b.len < sz then .error .tagBufferTooSmall
      else match b.sliceTo sz with
        | none => .panic
        | some t => .ok t

/-! ## The mailbox -/

/-- The struct `Mailbox`.  `f` is the file handle (`none` is nil, `some fd` an
open descriptor), `addr` the address at which the runtime placed
`bufUnaligned[0]`.  The window `buf` aliases `bufUnaligned`; once it is set the
source reaches the array through `buf` only, so the model keeps the memory of
the window in `buf` itself. -/
structure Mailbox where
  f : Option Nat
  addr : Nat
  bufUnaligned : List Nat
  buf : Option Slice
deriving DecidableEq, Repr

/-- The device behind `ioctl.Ioctl(m.f.Fd(), mbIoctl, &m.buf[0])`: from the
file handle and the memory that starts at the pointer it gives an `errno`, or
the words it left in that memory. -/
abbrev Device := Option Nat → List Nat → Except Nat (List Nat)

/-- The value `offset := uintptr(unsafe.Pointer(&m.bufUnaligned[0])) & 15`. -/
def alignOffset (addr : Nat) : Nat := addr &&& 15

/-- The low bound `16-offset` of the window, an index into `bufUnaligned`. -/
def windowLow (addr : Nat) : Nat := 16 - alignOffset addr

/-- The high bound `uintptr(len(m.bufUnaligned))-offset` of the window. -/
def windowHigh (addr n : Nat) : Nat := n - alignOffset addr

/-- The address of `bufUnaligned[16-offset]`, the first word of the window:
the elements of a `uint32` array are 4 bytes apart. -/
def windowAddr (addr : Nat) : Nat := addr + 4 * windowLow addr

/-- The value `&Mailbox{f: ff}` that `Open` builds around the descriptor `fd`,
placed so that `bufUnaligned[0]` is at `addr`: zeroed array, nil window. -/
def Mailbox.opened (fd addr : Nat) : Mailbox :=
  { f := some fd, addr := addr, bufUnaligned := List.replicate 48 0, buf := none }

/-- What the declaration of `Mailbox` and the first lines of `Do` maintain:
`bufUnaligned` has 48 words and `buf`, once set, is the window
`bufUnaligned[16-offset : 48-offset]`, 32 words long with `offset` more words
of capacity behind it. -/
def Mailbox.Inv (m : Mailbox) : Prop :=
  m.bufUnaligned.length = 48 ∧
    ∀ w, m.buf = some w → w.len = 32 ∧ w.data.length = 32 + alignOffset m.addr

/-- Lines 166-169 of `Do`: the window `m.buf`, set on the first call. -/
def Mailbox.window (m : Mailbox) : Option Slice :=
  match m.buf with
  | some b => some b
  | none =>
    (Slice.ofList m.bufUnaligned).slice (windowLow m.addr)
      (windowHigh m.addr m.bufUnaligned.length)

/-- Lines 173-175 of `Do`: `bufferBytes` is raised to `len(args) * 4`. -/
def valueBufferBytes (bufferBytes : Int) (nargs : Nat) : Int :=
  if bufferBytes < (nargs : Int) * 4 then (nargs : Int) * 4 else bufferBytes

/-- The word `uint32(bufferBytes)` written to `m.buf[3]`. -/
def valueBufferWord (bufferBytes : Int) (nargs : Nat) : Nat :=
  (valueBufferBytes bufferBytes nargs % 2 ^ 32).toNat

/-- Lines 177-191 of `Do`: the request written into the window.  The last
step is the slice expression `m.buf[:5+len(args)]` of the TX dump, which is
evaluated whether or not `Debug` is set. -/
def buildRequest (buf : Slice) (tagID : Nat) (bufferBytes : Int) (args : List Nat) :
    Option Slice := do
  let b ← buf.set 0 ((buf.len % 2 ^ 32) * 4 % 2 ^ 32)
  let b ← b.set 1 RequestCodeDefault
  let b ← b.set 2 tagID
  let b ← b.set 3 (valueBufferWord bufferBytes args.length)
  let b ← b.set 4 0
  let b ← b.copyFrom 5 args
  let _ ← b.sliceTo (5 + args.length)
  pure b

set_option linter.unusedVariables false in
/-- The decode loop of `Do` (lines 213-229), started with the tags read so
far. -/
def decodeTags (b : Slice) (tags : List Tag) : Outcome (List Tag) :=
  match hr : ReadTag b with
  | .error e => .error e
  | .panic => .panic
  | .ok t =>
    if t.IsEnd then .ok tags
    else
      match hs : b.sliceFrom t.len with
      | none => .panic
      | some b' => decodeTags b' (tags ++ [t])
termination_by b.len
decreasing_by
  have ht : 0 < t.len := by
    unfold ReadTag at hr
    split at hr
    · cases hr; decide
    · split at hr
      · cases hr
      · split at hr
        · cases hr
        · dsimp only at hr
          split at hr
          · cases hr
          · split at hr
            · cases hr
            · rename_i t' hst
              cases hr
              unfold Slice.sliceTo Slice.slice at hst
              split at hst
              · cases hst; simp
              · cases hst
  unfold Slice.sliceFrom Slice.slice at hs
  split at hs
  · rename_i hb
    cases hs
    simp only
    omega
  · cases hs

/-- Lines 199-229 of `Do`: what happens once the ioctl has succeeded and left
`buf` in the window.  `m.buf[:16]` is the slice expression of the RX dump. -/
def checkReply (buf : Slice) : Outcome (List Tag) :=
  match buf.sliceTo 16 with
  | none => .panic
  | some _ =>
    match buf.index 1 with
    | none => .panic
    | some r =>
      if r = replyFail then .error .requestBuffer
      else if r &&& replySuccess ≠ replySuccess then .error (.unexpectedResponseCode r)
      else
        match buf.sliceFrom 2 with
        | none => .panic
        | some b => decodeTags b []

/-- The memory of the window after the device has written `mem` into it. -/
def received (req : Slice) (mem : List Nat) : Slice :=
  { req with data := Slice.overwrite req.data 0 mem }

/-- The method `Do`: the outcome and the mailbox afterwards.  After a panic
the mailbox is not observed; the model leaves it as it was. -/
def Mailbox.Do (dev : Device) (m : Mailbox) (tagID : Nat) (bufferBytes : Int)
    (args : List Nat) : Outcome (List Tag) × Mailbox :=
  match m.window with
  | none => (.panic, m)
  | some w =>
    match buildRequest w tagID bufferBytes args with
    | none => (.panic, m)
    | some req =>
      match dev m.f req.data with
      | .error e => (.error (.errno e), { m with buf := some req })
      | .ok mem => (checkReply (received req mem), { m with buf := some (received req mem) })

/-- The method `getUint32`: `tags[0].Value()[0]` is read without a check. -/
def Mailbox.getUint32 (dev : Device) (m : Mailbox) (tagID : Nat) : Outcome Nat × Mailbox :=
  match m.Do dev tagID 4 [] with
  | (.error e, m') => (.error e, m')
  | (.panic, m') => (.panic, m')
  | (.ok tags, m') =>
    match tags[0]? with
    | none => (.panic, m')
    | some t =>
      match t.Value with
      | none => (.panic, m')
      | some v =>
        match v.index 0 with
        | none => (.panic, m')
        | some x => (.ok x, m')

def Mailbox.GetFirmwareRevision (dev : Device) (m : Mailbox) : Outcome Nat × Mailbox :=
  m.getUint32 dev TagGetFirmwareRevision

def Mailbox.GetBoardModel (dev : Device) (m : Mailbox) : Outcome Nat × Mailbox :=
  m.getUint32 dev TagGetBoardModel

def Mailbox.GetBoardRevision (dev : Device) (m : Mailbox) : Outcome Nat × Mailbox :=
  m.getUint32 dev TagGetBoardRevision

/-- The method `getUint32ByID`: `tags[0].Value()[1]` is read without a check,
and the first value word is not compared with `id`. -/
def Mailbox.getUint32ByID (dev : Device) (m : Mailbox) (tagID id : Nat) :
    Outcome Nat × Mailbox :=
  match m.Do dev tagID 8 [id] with
  | (.error e, m') => (.error e, m')
  | (.panic, m') => (.panic, m')
  | (.ok tags, m') =>
    match tags[0]? with
    | none => (.panic, m')
    | some t =>
      match t.Value with
      | none => (.panic, m')
      | some v =>
        match v.index 1 with
        | none => (.panic, m')
        | some x => (.ok x, m')

/-- The method `GetPowerState`: `PowerState(tags[0].Value()[1] & 0x03)`. -/
def Mailbox.GetPowerState (dev : Device) (m : Mailbox) (id : Nat) : Outcome Nat × Mailbox :=
  match m.Do dev TagGetPowerState 8 [id] with
  | (.error e, m') => (.error e, m')
  | (.panic, m') => (.panic, m')
  | (.ok tags, m') =>
    match tags[0]? with
    | none => (.panic, m')
    | some t =>
      match t.Value with
      | none => (.panic, m')
      | some v =>
        match v.index 1 with
        | none => (.panic, m')
        | some x => (.ok (x &&& 0x03), m')

/-! ## Open and Close -/

/-- The errno `ENOENT`. -/
def ENOENT : Nat := 2

/-- The function `Open`.  `openFile` is what
`os.OpenFile("/dev/vcio", os.O_RDONLY, os.ModePerm)` returned, a descriptor or
an error, and `addr` the address at which the new `Mailbox` is placed.  The
test `err == os.ErrNotExist` compares the two error values. -/
def Open (openFile : Except Err Nat) (addr : Nat) : Outcome Mailbox :=
  match openFile with
  | .error err =>
    if err = Err.osErrNotExist then .error .notImplemented
    else .error err
  | .ok ff => .ok (Mailbox.opened ff addr)

/-- The method `Close` on a `*Mailbox` (`none` is the nil pointer): the error
it returns (`none` is nil) and the mailbox afterwards.  `closeFile` is what
`c.f.Close()` returns for a descriptor. -/
def Mailbox.Close (closeFile : Nat → Option Err) (c : Option Mailbox) :
    Option Err × Option Mailbox :=
  match c with
  | none => (none, none)
  | some m =>
    match m.f with
    | none => (none, some m)
    | some fd => (closeFile fd, some { m with f := none })

end Mbox

/-! # Theorems -/

namespace Ioctl

/-- With a `uint` of at least 32 bits and fields within their widths, `ioc`
is the sum of the four fields, each at its own position. -/
theorem ioc_eq_sum (w dir typ nr size : Nat) (hw : 32 ≤ w) (hdir : dir < 4)
    (htyp : typ < 256) (hnr : nr < 256) (hsize : size < 2 ^ 14) :
    ioc w dir typ nr size = 2 ^ 30 * dir + (2 ^ 16 * size + (2 ^ 8 * typ + nr)) := by
  have hpow : 2 ^ 32 ≤ 2 ^ w := Nat.pow_le_pow_right (by decide) hw
  have h1 : (dir <<< iocDirshift) % 2 ^ w = 2 ^ 30 * dir := by
    rw [Nat.shiftLeft_eq, Nat.mod_eq_of_lt]
    · simp [iocDirshift, iocSizeshift, iocTypeshift, iocNrshift, iocNrbits, iocTypebits,
        iocSizebits, Nat.mul_comm]
    · simp only [iocDirshift, iocSizeshift, iocTypeshift, iocNrshift, iocNrbits, iocTypebits,
        iocSizebits]
      omega
  have h2 : (typ <<< iocTypeshift) % 2 ^ w = 2 ^ 8 * typ := by
    rw [Nat.shiftLeft_eq, Nat.mod_eq_of_lt]
    · simp [iocTypeshift, iocNrshift, iocNrbits, Nat.mul_comm]
    · simp only [iocTypeshift, iocNrshift, iocNrbits]
      omega
  have h3 : (nr <<< iocNrshift) % 2 ^ w = nr := by
    rw [Nat.shiftLeft_eq, Nat.mod_eq_of_lt]
    · simp [iocNrshift]
    · simp only [iocNrshift]
      omega
  have h4 : (size <<< iocSizeshift) % 2 ^ w = 2 ^ 16 * size := by
    rw [Nat.shiftLeft_eq, Nat.mod_eq_of_lt]
    · simp [iocSizeshift, iocTypeshift, iocNrshift, iocNrbits, iocTypebits, Nat.mul_comm]
    · simp only [iocSizeshift, iocTypeshift, iocNrshift, iocNrbits, iocTypebits]
      omega
  have hre : ∀ a b c d : Nat, a ||| b ||| c ||| d = a ||| (d ||| (b ||| c)) := by
    intro a b c d
    rw [Nat.or_assoc, Nat.or_assoc, ← Nat.or_assoc b c d, Nat.or_comm (b ||| c) d]
  unfold ioc
  rw [h1, h2, h3, h4, hre]
  rw [← Nat.mul_add_lt_is_or (by omega : nr < 2 ^ 8) typ]
  rw [← Nat.mul_add_lt_is_or (by omega : 2 ^ 8 * typ + nr < 2 ^ 16) size]
  rw [← Nat.mul_add_lt_is_or (by omega : 2 ^ 16 * size + (2 ^ 8 * typ + nr) < 2 ^ 30) dir]

/-- C4: for every `dir < 4`, `typ < 256`, `nr < 256` and `size < 2^14` (and a
`uint` of at least 32 bits), `op = ioc(dir, typ, nr, size)` is below `2^32`
and masking and shifting give the four fields back: `op & 0xFF = nr`,
`(op >> 8) & 0xFF = typ`, `(op >> 16) & 0x3FFF = size`, `(op >> 30) & 3 = dir`. -/
theorem ioc_fields (w dir typ nr size : Nat) (hw : 32 ≤ w) (hdir : dir < 4)
    (htyp : typ < 256) (hnr : nr < 256) (hsize : size < 2 ^ 14) :
    ioc w dir typ nr size < 2 ^ 32 ∧
      ioc w dir typ nr size &&& 0xFF = nr ∧
      (ioc w dir typ nr size >>> 8) &&& 0xFF = typ ∧
      (ioc w dir typ nr size >>> 16) &&& 0x3FFF = size ∧
      (ioc w dir typ nr size >>> 30) &&& 3 = dir := by
  rw [ioc_eq_sum w dir typ nr size hw hdir htyp hnr hsize]
  have m8 : ∀ x : Nat, x &&& 0xFF = x % 2 ^ 8 := fun x => Nat.and_pow_two_sub_one_eq_mod x 8
  have m14 : ∀ x : Nat, x &&& 0x3FFF = x % 2 ^ 14 := fun x => Nat.and_pow_two_sub_one_eq_mod x 14
  have m2 : ∀ x : Nat, x &&& 3 = x % 2 ^ 2 := fun x => Nat.and_pow_two_sub_one_eq_mod x 2
  rw [m8, m8, m14, m2, Nat.shiftRight_eq_div_pow, Nat.shiftRight_eq_div_pow,
    Nat.shiftRight_eq_div_pow]
  refine ⟨?_, ?_, ?_, ?_, ?_⟩ <;> omega

/-- The fields of the mailbox opcode on a 32-bit platform are within their
widths, and `ioc` gives them back. -/
theorem ioc_fields_witness :
    ioc 32 3 100 0 4 < 2 ^ 32 ∧
      ioc 32 3 100 0 4 &&& 0xFF = 0 ∧
      (ioc 32 3 100 0 4 >>> 8) &&& 0xFF = 100 ∧
      (ioc 32 3 100 0 4 >>> 16) &&& 0x3FFF = 4 ∧
      (ioc 32 3 100 0 4 >>> 30) &&& 3 = 3 :=
  ioc_fields 32 3 100 0 4 (by decide) (by decide) (by decide) (by decide) (by decide)

end Ioctl

namespace Mbox

/-- C5: `mbIoctl = IOWR('d', 0, p)` is the kernel's `_IOWR(100, 0, char *)`:
`0xC0046400` with 32-bit `uint` and pointers, `0xC0086400` with 64-bit ones. -/
theorem mbIoctl_eq_kernel : mbIoctl 32 4 = 0xC0046400 ∧ mbIoctl 64 8 = 0xC0086400 := by
  decide

/-- The offset taken in `Do` is the address modulo 16. -/
theorem alignOffset_eq_mod (addr : Nat) : alignOffset addr = addr % 16 :=
  Nat.and_pow_two_sub_one_eq_mod addr 4

/-- The window of `Do` starts at an address congruent to the address of the
backing array: the offset, a number of bytes, is used as a number of words. -/
theorem windowAddr_mod (addr : Nat) (h : addr % 4 = 0) : windowAddr addr % 16 = addr % 16 := by
  unfold windowAddr windowLow
  rw [alignOffset_eq_mod]
  omega

/-- C1 (fails on the code): a backing array at address 8, a multiple of 4,
has offset 8, the window starts at index 8 and hence at address 40, which is
8 modulo 16; at address 4 the window starts at an address that is 4 modulo
16. -/
theorem windowAddr_misaligned :
    8 % 4 = 0 ∧ windowLow 8 = 8 ∧ windowAddr 8 = 40 ∧ windowAddr 8 % 16 = 8 ∧
      windowAddr 4 % 16 = 4 := by
  decide

/-! ## ReadTag -/

/-- When the first word is 0, `ReadTag` gives the end tag. -/
theorem ReadTag_zero (b : Slice) (h : b.index 0 = some 0) : ReadTag b = .ok EndTag := by
  have hlen : 0 < b.len := by
    unfold Slice.index at h
    split at h
    · assumption
    · cases h
  simp [ReadTag, h, hlen]

/-- What a successful `ReadTag` returns: the end tag when the first word is 0,
and otherwise the first `3 + b[1]/4` words of `b`, which `b` has. -/
theorem ReadTag_ok (b : Slice) (t : Tag) (h : ReadTag b = .ok t) :
    (b.index 0 = some 0 ∧ t = EndTag) ∨
      (b.index 0 ≠ some 0 ∧ ∃ c, b.index 1 = some c ∧ 3 + c / 4 ≤ b.len ∧
        3 + c / 4 ≤ b.data.length ∧ t = ⟨b.data, 3 + c / 4⟩) := by
  unfold ReadTag at h
  split at h
  · rename_i h0
    cases h
    exact Or.inl ⟨h0.2, rfl⟩
  · rename_i h0
    have hlen3 : ¬ b.len < 3 := by
      intro hlt
      simp [hlt] at h
    have hne : b.index 0 ≠ some 0 := by
      intro h1
      exact h0 ⟨by omega, h1⟩
    rw [if_neg hlen3] at h
    split at h
    · cases h
    · rename_i c hc
      dsimp only at h
      split at h
      · cases h
      · rename_i hsz
        split at h
        · cases h
        · rename_i t' ht'
          cases h
          unfold Slice.sliceTo Slice.slice at ht'
          split at ht'
          · rename_i hcap
            cases ht'
            refine Or.inr ⟨hne, c, hc, by omega, hcap.2, ?_⟩
            simp
          · cases ht'

/-- C2 (fails on the code): the slice `[1, 5, 0, 7]` starts with a non-zero
word and has 4 words, fewer than the `3 + ceil(5/4) = 5` its declared capacity
of 5 bytes calls for; `ReadTag` divides rounding down and returns the 4 words
as a tag, with no error. -/
theorem ReadTag_unaligned_capacity :
    (Slice.ofList [1, 5, 0, 7]).index 0 = some 1 ∧
      (Slice.ofList [1, 5, 0, 7]).index 1 = some 5 ∧
      (Slice.ofList [1, 5, 0, 7]).len < 3 + (5 + 3) / 4 ∧
      ReadTag (Slice.ofList [1, 5, 0, 7]) = .ok (Slice.ofList [1, 5, 0, 7]) := by
  decide

/-! ## Tag accessors -/

/-- C7 (fails on the code): the valid response tag `[1, 4, 0x80000008, 7]` has
`Cap() = 4` and `Len() = 8`, so `min(Len(), Cap())/4` is one word.  `Value()`
slices `t[3:5]`: on a tag whose capacity is its length it panics, and on the
same tag read out of a buffer that goes on with `[0]` it returns the two
words `[7, 0]`, the second of which lies past the tag. -/
theorem Value_ignores_Cap :
    Tag.IsValid (Slice.ofList [1, 4, 0x80000008, 7]) = some true ∧
      Tag.IsResponse (Slice.ofList [1, 4, 0x80000008, 7]) = some true ∧
      Tag.Cap (Slice.ofList [1, 4, 0x80000008, 7]) = some 4 ∧
      Tag.Len (Slice.ofList [1, 4, 0x80000008, 7]) = some 8 ∧
      Tag.Value (Slice.ofList [1, 4, 0x80000008, 7]) = none ∧
      ReadTag (Slice.ofList [1, 4, 0x80000008, 7, 0]) = .ok ⟨[1, 4, 0x80000008, 7, 0], 4⟩ ∧
      Tag.IsValid ⟨[1, 4, 0x80000008, 7, 0], 4⟩ = some true ∧
      Tag.IsResponse ⟨[1, 4, 0x80000008, 7, 0], 4⟩ = some true ∧
      Tag.Cap ⟨[1, 4, 0x80000008, 7, 0], 4⟩ = some 4 ∧
      Tag.Len ⟨[1, 4, 0x80000008, 7, 0], 4⟩ = some 8 ∧
      (Tag.Value ⟨[1, 4, 0x80000008, 7, 0], 4⟩).map Slice.words = some [7, 0] := by
  decide

/-! ## The decode loop -/

/-- An error of `ReadTag` ends the loop with that error and no tags. -/
theorem decodeTags_of_error (b : Slice) (acc : List Tag) (e : Err)
    (h : ReadTag b = .error e) : decodeTags b acc = .error e := by
  rw [decodeTags]
  split
  · rename_i e' he
    rw [h] at he
    cases he
    rfl
  · rename_i he
    rw [h] at he
    cases he
  · rename_i t he
    rw [h] at he
    cases he

/-- The end tag ends the loop with the tags read so far. -/
theorem decodeTags_of_end (b : Slice) (acc : List Tag) (t : Tag)
    (h : ReadTag b = .ok t) (hend : t.IsEnd = true) : decodeTags b acc = .ok acc := by
  rw [decodeTags]
  split
  · rename_i e' he
    rw [h] at he
    cases he
  · rename_i he
    rw [h] at he
    cases he
  · rename_i t' he
    rw [h] at he
    cases he
    simp [hend]

/-- Any other tag is appended and the loop goes on behind it. -/
theorem decodeTags_of_tag (b b' : Slice) (acc : List Tag) (t : Tag)
    (h : ReadTag b = .ok t) (hend : t.IsEnd = false) (hs : b.sliceFrom t.len = some b') :
    decodeTags b acc = decodeTags b' (acc ++ [t]) := by
  rw [decodeTags]
  split
  · rename_i e' he
    rw [h] at he
    cases he
  · rename_i he
    rw [h] at he
    cases he
  · rename_i t' he
    rw [h] at he
    cases he
    simp only [hend, Bool.false_eq_true, if_false]
    split
    · rename_i hn
      rw [hs] at hn
      cases hn
    · rename_i b'' hb''
      rw [hs] at hb''
      cases hb''
      rfl

/-- The loop stops at once on a slice that starts with 0. -/
theorem decodeTags_of_zero (b : Slice) (h : b.index 0 = some 0) :
    decodeTags b [] = .ok [] :=
  decodeTags_of_end b [] EndTag (ReadTag_zero b h) (by decide)

/-- C9: for every word slice `b` whose first word is 0, `ReadTag` returns the
end tag with no error, and the decode loop of `Do` on `b` returns an empty tag
list with no error, whatever follows the 0. -/
theorem decode_end_marker (b : Slice) (h : b.index 0 = some 0) :
    ReadTag b = .ok EndTag ∧ decodeTags b [] = .ok [] :=
  ⟨ReadTag_zero b h, decodeTags_of_zero b h⟩

/-- The end marker followed by stale words decodes to no tags. -/
theorem decode_end_marker_witness :
    (Slice.ofList [0, 7, 9]).index 0 = some 0 ∧
      ReadTag (Slice.ofList [0, 7, 9]) = .ok EndTag ∧
      decodeTags (Slice.ofList [0, 7, 9]) [] = .ok [] :=
  ⟨by decide, decode_end_marker (Slice.ofList [0, 7, 9]) (by decide)⟩

/-- A panic of `ReadTag` is a panic of the loop. -/
theorem decodeTags_of_panic (b : Slice) (acc : List Tag) (h : ReadTag b = .panic) :
    decodeTags b acc = .panic := by
  rw [decodeTags]
  split
  · rename_i e' he
    rw [h] at he
    cases he
  · rfl
  · rename_i t he
    rw [h] at he
    cases he

/-- A panic of `b[len(t):]` is a panic of the loop. -/
theorem decodeTags_of_slice_panic (b : Slice) (acc : List Tag) (t : Tag)
    (h : ReadTag b = .ok t) (hend : t.IsEnd = false) (hs : b.sliceFrom t.len = none) :
    decodeTags b acc = .panic := by
  rw [decodeTags]
  split
  · rename_i e' he
    rw [h] at he
    cases he
  · rfl
  · rename_i t' he
    rw [h] at he
    cases he
    simp only [hend, Bool.false_eq_true, if_false]
    split
    · rfl
    · rename_i b'' hb''
      rw [hs] at hb''
      cases hb''

/-- A tag that `ReadTag` cut from the front of `b` with a non-zero first word:
it is valid, is not the end tag, and has `3 + t[1]/4` words. -/
theorem cut_tag_valid (b : Slice) (c : Nat) (hc : b.index 1 = some c)
    (hcap : 3 + c / 4 ≤ b.data.length) :
    Tag.IsValid ⟨b.data, 3 + c / 4⟩ = some true ∧ Tag.IsEnd ⟨b.data, 3 + c / 4⟩ = false ∧
      Slice.index ⟨b.data, 3 + c / 4⟩ 1 = some c ∧
      (Slice.words ⟨b.data, 3 + c / 4⟩).length = 3 + c / 4 := by
  have hi : Slice.index ⟨b.data, 3 + c / 4⟩ 1 = some c := by
    unfold Slice.index at hc ⊢
    split at hc
    · rw [if_pos (by show 1 < 3 + c / 4; omega)]
      exact hc
    · cases hc
  refine ⟨?_, ?_, hi, ?_⟩
  · unfold Tag.IsValid
    rw [if_neg (by show ¬ (3 + c / 4 = 0); omega), if_neg (by show ¬ (3 + c / 4 = 1); omega),
      if_neg (by show ¬ (3 + c / 4 < 3); omega), hi]
    simp
  · unfold Tag.IsEnd
    have : ((3 + c / 4) == 1) = false := by
      rw [beq_eq_false_iff_ne]
      omega
    simp [this]
  · simp [Slice.words, hcap]

/-- The words of `b` are those of its first `n` and those of `b[n:]`. -/
theorem words_split (b : Slice) (n : Nat) (hn : n ≤ b.len) :
    b.words = Slice.words ⟨b.data, n⟩ ++ Slice.words ⟨b.data.drop n, b.len - n⟩ := by
  unfold Slice.words
  show List.take b.len b.data = List.take n b.data ++ List.take (b.len - n) (List.drop n b.data)
  rw [← List.take_add]
  congr 1
  omega

/-- The loop, started with the tags `acc`, returns `acc` followed by tags that
lie one after the other at the front of `b` and are followed by a 0. -/
theorem decodeTags_acc (n : Nat) : ∀ (b : Slice) (acc res : List Tag), b.len ≤ n →
    decodeTags b acc = .ok res →
    ∃ new, res = acc ++ new ∧ (new.map Slice.words).flatten <+: b.words ∧
      b.index (new.map Slice.words).flatten.length = some 0 ∧
      ∀ t ∈ new, t.IsValid = some true ∧ t.IsEnd = false ∧
        ∃ c, t.index 1 = some c ∧ t.words.length = 3 + c / 4 := by
  induction n with
  | zero =>
    intro b acc res hb h
    cases hr : ReadTag b with
    | error e => rw [decodeTags_of_error b acc e hr] at h; cases h
    | panic => rw [decodeTags_of_panic b acc hr] at h; cases h
    | ok t =>
      rcases ReadTag_ok b t hr with ⟨h0, ht⟩ | ⟨_, c, _, _, _, _⟩
      · subst ht
        rw [decodeTags_of_end b acc EndTag hr (by decide)] at h
        cases h
        exact ⟨[], by simp, by simp, by simpa using h0, by simp⟩
      · omega
  | succ n ih =>
    intro b acc res hb h
    cases hr : ReadTag b with
    | error e => rw [decodeTags_of_error b acc e hr] at h; cases h
    | panic => rw [decodeTags_of_panic b acc hr] at h; cases h
    | ok t =>
      rcases ReadTag_ok b t hr with ⟨h0, ht⟩ | ⟨_, c, hc, hlen, hcap, ht⟩
      · subst ht
        rw [decodeTags_of_end b acc EndTag hr (by decide)] at h
        cases h
        exact ⟨[], by simp, by simp, by simpa using h0, by simp⟩
      · subst ht
        obtain ⟨hv, he, hi, hw⟩ := cut_tag_valid b c hc hcap
        by_cases hwf : b.len ≤ b.data.length
        · have hs : b.sliceFrom (3 + c / 4) = some ⟨b.data.drop (3 + c / 4), b.len - (3 + c / 4)⟩ := by
            simp [Slice.sliceFrom, Slice.slice, Slice.cap, hlen, hwf]
          rw [decodeTags_of_tag b _ acc _ hr he hs] at h
          obtain ⟨new, hres, hpre, hz, hall⟩ := ih _ _ _ (by show b.len - (3 + c / 4) ≤ n; omega) h
          refine ⟨⟨b.data, 3 + c / 4⟩ :: new, by simp [hres], ?_, ?_, ?_⟩
          · rw [words_split b (3 + c / 4) hlen]
            simp only [List.map_cons, List.flatten_cons]
            exact (List.prefix_append_right_inj _).mpr hpre
          · simp only [List.map_cons, List.flatten_cons, List.length_append, hw]
            unfold Slice.index at hz ⊢
            split at hz
            · rename_i hk
              rw [if_pos (by show _ < b.len; simp only at hk; omega)]
              rw [← hz]
              simp only [List.getElem?_drop]
            · cases hz
          · intro t ht
            rcases List.mem_cons.mp ht with rfl | ht
            · exact ⟨hv, he, c, hi, hw⟩
            · exact hall t ht
        · have hs : b.sliceFrom (3 + c / 4) = none := by
            simp [Slice.sliceFrom, Slice.slice, Slice.cap, hwf]
          rw [decodeTags_of_slice_panic b acc _ hr he hs] at h
          cases h

/-- C10: when the decode loop of `Do` succeeds on `b` with tags `t1..tn`, the
words of `t1 ++ ... ++ tn` are a prefix of `b`, the word of `b` right after
that prefix is the end marker 0, every `ti` satisfies `IsValid`, is not the
end tag and has exactly `3 + ti[1]/4` words: each step skips the whole
reserved region of the tag. -/
theorem decodeTags_layout (b : Slice) (tags : List Tag) (h : decodeTags b [] = .ok tags) :
    (tags.map Slice.words).flatten <+: b.words ∧
      b.index (tags.map Slice.words).flatten.length = some 0 ∧
      ∀ t ∈ tags, t.IsValid = some true ∧ t.IsEnd = false ∧
        ∃ c, t.index 1 = some c ∧ t.words.length = 3 + c / 4 := by
  obtain ⟨new, hres, hrest⟩ := decodeTags_acc b.len b [] tags (Nat.le_refl _) h
  rw [List.nil_append] at hres
  subst hres
  exact hrest

/-! ## The window and the request -/

theorem overwrite_length (d : List Nat) (off : Nat) (src : List Nat) :
    (Slice.overwrite d off src).length = d.length := by
  induction d generalizing off src with
  | nil => simp [Slice.overwrite]
  | cons x xs ih =>
    cases off with
    | zero =>
      cases src with
      | nil => simp [Slice.overwrite]
      | cons y ys => simp [Slice.overwrite, ih]
    | succ k => simp [Slice.overwrite, ih]

/-- Words before the offset are kept. -/
theorem overwrite_getElem?_lt (d : List Nat) (off : Nat) (src : List Nat) (i : Nat)
    (hi : i < off) : (Slice.overwrite d off src)[i]? = d[i]? := by
  induction d generalizing off i with
  | nil => simp [Slice.overwrite]
  | cons x xs ih =>
    cases off with
    | zero => omega
    | succ k =>
      cases i with
      | zero => simp [Slice.overwrite]
      | succ j => simpa [Slice.overwrite] using ih k j (by omega)

/-- From the offset on, the words are those of the source. -/
theorem overwrite_getElem?_src (d : List Nat) (off : Nat) (src : List Nat) (i : Nat)
    (hi : i < src.length) (hd : off + i < d.length) :
    (Slice.overwrite d off src)[off + i]? = src[i]? := by
  induction d generalizing off src i with
  | nil => simp at hd
  | cons x xs ih =>
    cases off with
    | zero =>
      cases src with
      | nil => simp at hi
      | cons y ys =>
        cases i with
        | zero => simp [Slice.overwrite]
        | succ j =>
          have := ih 0 ys j (by simpa using hi) (by simp at hd; omega)
          simpa [Slice.overwrite] using this
    | succ k =>
      have := ih k src i hi (by simp at hd; omega)
      have e : k + 1 + i = (k + i) + 1 := by omega
      rw [e]
      simpa [Slice.overwrite] using this

/-- The request that `Do` builds: it needs a window of at least 5 words with
room for `5 + len(args)` within its capacity, and writes the five header words
and then as many arguments as the window holds. -/
theorem buildRequest_eq (buf : Slice) (tagID : Nat) (bufferBytes : Int) (args : List Nat) :
    buildRequest buf tagID bufferBytes args =
      if 5 ≤ buf.len ∧ 5 + args.length ≤ buf.data.length then
        some ⟨Slice.overwrite
          (((((buf.data.set 0 ((buf.len % 2 ^ 32) * 4 % 2 ^ 32)).set 1 RequestCodeDefault).set 2
            tagID).set 3 (valueBufferWord bufferBytes args.length)).set 4 0) 5
          (args.take (buf.len - 5)), buf.len⟩
      else none := by
  unfold buildRequest
  by_cases h5 : 5 ≤ buf.len
  · by_cases hc : 5 + args.length ≤ buf.data.length
    · simp [Slice.set, Slice.copyFrom, Slice.sliceTo, Slice.slice, Slice.cap, h5, hc,
        overwrite_length, show 0 < buf.len by omega, show 1 < buf.len by omega,
        show 2 < buf.len by omega, show 3 < buf.len by omega, show 4 < buf.len by omega]
    · simp [Slice.set, Slice.copyFrom, Slice.sliceTo, Slice.slice, Slice.cap, h5, hc,
        overwrite_length, show 0 < buf.len by omega, show 1 < buf.len by omega,
        show 2 < buf.len by omega, show 3 < buf.len by omega, show 4 < buf.len by omega]
  · have h5' : ¬ (5 ≤ buf.len ∧ 5 + args.length ≤ buf.data.length) := fun h => h5 h.1
    rw [if_neg h5']
    by_cases h0 : 0 < buf.len
    · by_cases h1 : 1 < buf.len
      · by_cases h2 : 2 < buf.len
        · by_cases h3 : 3 < buf.len
          · have h4 : ¬ 4 < buf.len := by omega
            simp [Slice.set, h0, h1, h2, h3, h4]
          · simp [Slice.set, h0, h1, h2, h3]
        · simp [Slice.set, h0, h1, h2]
      · simp [Slice.set, h0, h1]
    · simp [Slice.set, h0]

/-- A capacity that covers the arguments and fits 32 bits is written
unchanged. -/
theorem valueBufferWord_of_le (capacity : Int) (n : Nat) (hargs : 4 * (n : Int) ≤ capacity)
    (hfit : capacity < 2 ^ 32) : valueBufferWord capacity n = capacity.toNat := by
  unfold valueBufferWord valueBufferBytes
  rw [if_neg (by omega)]
  have : (2 : Int) ^ 32 = 4294967296 := by norm_num
  rw [this] at hfit ⊢
  omega

/-- The window is there, 32 words long, with `offset` words of capacity behind
it. -/
theorem window_of_inv (m : Mailbox) (hinv : m.Inv) :
    ∃ w, m.window = some w ∧ w.len = 32 ∧ w.data.length = 32 + alignOffset m.addr := by
  obtain ⟨h48, hbuf⟩ := hinv
  unfold Mailbox.window
  cases hb : m.buf with
  | some w => exact ⟨w, rfl, hbuf w hb⟩
  | none =>
    have hoff : alignOffset m.addr < 16 := by
      rw [alignOffset_eq_mod]
      omega
    refine ⟨⟨m.bufUnaligned.drop (windowLow m.addr),
      windowHigh m.addr m.bufUnaligned.length - windowLow m.addr⟩, ?_, ?_, ?_⟩
    · simp only [Slice.slice, Slice.ofList, Slice.cap, windowLow, windowHigh, h48]
      rw [if_pos (by omega)]
    · simp only [windowLow, windowHigh, h48]
      omega
    · simp only [List.length_drop, windowLow, h48]
      omega


/-- The header words of a request. -/
theorem header_getElem? (d : List Nat) (a b c e f : Nat) (src : List Nat) (hd : 5 ≤ d.length) :
    (Slice.overwrite (((((d.set 0 a).set 1 b).set 2 c).set 3 e).set 4 f) 5 src)[0]? = some a ∧
    (Slice.overwrite (((((d.set 0 a).set 1 b).set 2 c).set 3 e).set 4 f) 5 src)[1]? = some b ∧
    (Slice.overwrite (((((d.set 0 a).set 1 b).set 2 c).set 3 e).set 4 f) 5 src)[2]? = some c ∧
    (Slice.overwrite (((((d.set 0 a).set 1 b).set 2 c).set 3 e).set 4 f) 5 src)[3]? = some e ∧
    (Slice.overwrite (((((d.set 0 a).set 1 b).set 2 c).set 3 e).set 4 f) 5 src)[4]? = some f := by
  refine ⟨?_, ?_, ?_, ?_, ?_⟩
  · rw [overwrite_getElem?_lt _ _ _ _ (by omega)]
    simp [List.getElem?_set]
    rintro rfl
    simp at hd
  · rw [overwrite_getElem?_lt _ _ _ _ (by omega)]
    simp [List.getElem?_set]
    omega
  · rw [overwrite_getElem?_lt _ _ _ _ (by omega)]
    simp [List.getElem?_set]
    omega
  · rw [overwrite_getElem?_lt _ _ _ _ (by omega)]
    simp [List.getElem?_set]
    omega
  · rw [overwrite_getElem?_lt _ _ _ _ (by omega)]
    simp [List.getElem?_set]
    omega

/-- A mailbox as `Open` returns it satisfies the invariant. -/
theorem opened_inv (fd addr : Nat) : (Mailbox.opened fd addr).Inv :=
  ⟨by simp [Mailbox.opened], fun w h => by cases h⟩

/-- C3, amended: for every non-zero `tagID`, every `capacity` and every `args`
with `4*len(args) <= capacity` and `3 + capacity/4 <= 30`, `ReadTag` on the
words from index 2 of the request that `Do` writes yields, without error, a
tag whose `ID()` is `tagID`, whose `Cap()` is `capacity`, which has
`3 + capacity/4` words, and whose first `len(args)` words after the 3-word
header are `args` in order. -/
theorem roundtrip (m : Mailbox) (tagID : Nat) (capacity : Int) (args : List Nat)
    (hinv : m.Inv) (hid : tagID ≠ 0) (hargs : 4 * (args.length : Int) ≤ capacity)
    (hfit : 3 + capacity / 4 ≤ 30) :
    ∃ w req b t, m.window = some w ∧ buildRequest w tagID capacity args = some req ∧
      req.sliceFrom 2 = some b ∧ ReadTag b = .ok t ∧ t.ID = some tagID ∧
      t.Cap = some capacity.toNat ∧ (capacity.toNat : Int) = capacity ∧
      t.words.length = 3 + capacity.toNat / 4 ∧
      (t.words.drop 3).take args.length = args := by
  obtain ⟨w, hw, hwlen, hwcap⟩ := window_of_inv m hinv
  have hcw : valueBufferWord capacity args.length = capacity.toNat :=
    valueBufferWord_of_le capacity args.length hargs (by norm_num; omega)
  have hn : args.length ≤ 27 := by omega
  have hsz : 3 + capacity.toNat / 4 ≤ 30 := by omega
  have hreq := buildRequest_eq w tagID capacity args
  rw [if_pos ⟨by omega, by omega⟩, hwlen, hcw,
    List.take_of_length_le (by show args.length ≤ 32 - 5; omega)] at hreq
  generalize hD : Slice.overwrite _ 5 args = D at hreq
  have hDlen : D.length = 32 + alignOffset m.addr := by
    rw [← hD, overwrite_length]
    simp [hwcap]
  obtain ⟨_, _, h2, h3, _⟩ := header_getElem? w.data ((32 % 2 ^ 32) * 4 % 2 ^ 32)
    RequestCodeDefault tagID capacity.toNat 0 args (by omega)
  rw [hD] at h2 h3
  have hargsD : ∀ i, i < args.length → D[5 + i]? = args[i]? := by
    intro i hi
    rw [← hD]
    exact overwrite_getElem?_src _ 5 args i hi (by simp; omega)
  have hb0 : Slice.index ⟨D.drop 2, 30⟩ 0 = some tagID := by
    simp [Slice.index, List.getElem?_drop, h2]
  have hb1 : Slice.index ⟨D.drop 2, 30⟩ 1 = some capacity.toNat := by
    simp [Slice.index, List.getElem?_drop, h3]
  have hread : ReadTag ⟨D.drop 2, 30⟩ = .ok ⟨D.drop 2, 3 + capacity.toNat / 4⟩ := by
    unfold ReadTag
    rw [hb0, hb1]
    have : ¬ ((30 : Nat) < 3 + capacity.toNat / 4) := by omega
    simp [hid, this, Slice.sliceTo, Slice.slice, Slice.cap, hDlen]
    rw [if_pos (by omega)]
  obtain ⟨hv, _, hi1, hwl⟩ := cut_tag_valid ⟨D.drop 2, 30⟩ capacity.toNat hb1
    (by simp [hDlen]; omega)
  refine ⟨w, ⟨D, 32⟩, ⟨D.drop 2, 30⟩, ⟨D.drop 2, 3 + capacity.toNat / 4⟩, hw, hreq, ?_, hread,
    ?_, ?_, ?_, hwl, ?_⟩
  · simp [Slice.sliceFrom, Slice.slice, Slice.cap, hDlen]
  · simp only [Tag.ID, hv]
    simp [Slice.index, List.getElem?_drop, h2]
  · simp only [Tag.Cap, hv, hi1]
  · exact Int.toNat_of_nonneg (by omega)
  · apply List.ext_getElem?
    intro i
    by_cases hi : i < args.length
    · rw [List.getElem?_take_of_lt hi, List.getElem?_drop]
      simp only [Slice.words]
      rw [List.getElem?_take_of_lt (by omega), List.getElem?_drop]
      rw [← hargsD i hi]
      congr 1
      omega
    · rw [List.getElem?_take_eq_none (by omega)]
      symm
      simp
      omega

/-- A clock-rate request, written over a fresh window at address 8, reads back
as its tag. -/
theorem roundtrip_witness :
    (Mailbox.opened 3 8).Inv ∧ (0x30002 : Nat) ≠ 0 ∧ 4 * (([3] : List Nat).length : Int) ≤ 8 ∧
      (3 + 8 / 4 : Int) ≤ 30 ∧
      ∃ w req b t, (Mailbox.opened 3 8).window = some w ∧
        buildRequest w 0x30002 8 [3] = some req ∧
        req.sliceFrom 2 = some b ∧ ReadTag b = .ok t ∧ t.ID = some 0x30002 ∧
        t.Cap = some (8 : Int).toNat ∧ ((8 : Int).toNat : Int) = 8 ∧
        t.words.length = 3 + (8 : Int).toNat / 4 ∧
        (t.words.drop 3).take ([3] : List Nat).length = [3] :=
  ⟨opened_inv 3 8, by decide, by decide, by decide,
    roundtrip (Mailbox.opened 3 8) 0x30002 8 [3] (opened_inv 3 8) (by decide) (by decide)
      (by decide)⟩

/-- C3 as stated fails: with `tagID = 1`, `capacity = 4` and no arguments the
hypotheses hold, and the tag read back has one word after its header, so the
words after the header are not `args`. -/
theorem roundtrip_counterexample :
    (1 : Nat) ≠ 0 ∧ 4 * (([] : List Nat).length : Int) ≤ 4 ∧ (3 + 4 / 4 : Int) ≤ 30 ∧
      ∃ w req b t, (Mailbox.opened 3 0).window = some w ∧
        buildRequest w 1 4 [] = some req ∧ req.sliceFrom 2 = some b ∧ ReadTag b = .ok t ∧
        t.words.drop 3 = [0] ∧ t.words.drop 3 ≠ [] :=
  ⟨by decide, by decide, by decide, _, _, _, _, rfl, rfl, rfl, rfl, by decide, by decide⟩

/-! ## The reply -/

/-- A request has the length and the capacity of the window it was written
into, which has at least 5 words. -/
theorem buildRequest_shape (w req : Slice) (tagID : Nat) (bufferBytes : Int) (args : List Nat)
    (h : buildRequest w tagID bufferBytes args = some req) :
    req.len = w.len ∧ req.data.length = w.data.length ∧ 5 ≤ w.len := by
  rw [buildRequest_eq] at h
  split at h
  · rename_i hc
    cases h
    exact ⟨rfl, by simp [overwrite_length], hc.1⟩
  · cases h

/-- Once the ioctl has succeeded, `Do` returns what the check of the reply
gives, and keeps the reply in the window. -/
theorem Do_of_ioctl_ok (dev : Device) (m : Mailbox) (tagID : Nat) (bufferBytes : Int)
    (args : List Nat) (w req : Slice) (mem : List Nat) (hw : m.window = some w)
    (hreq : buildRequest w tagID bufferBytes args = some req)
    (hdev : dev m.f req.data = .ok mem) :
    m.Do dev tagID bufferBytes args =
      (checkReply (received req mem), { m with buf := some (received req mem) }) := by
  unfold Mailbox.Do
  simp only [hw, hreq, hdev]

/-- The window after the ioctl still has 32 words and its capacity. -/
theorem received_shape (m : Mailbox) (tagID : Nat) (bufferBytes : Int) (args : List Nat)
    (w req : Slice) (mem : List Nat) (hinv : m.Inv) (hw : m.window = some w)
    (hreq : buildRequest w tagID bufferBytes args = some req) :
    (received req mem).len = 32 ∧
      (received req mem).data.length = 32 + alignOffset m.addr := by
  obtain ⟨w', hw', hlen, hcap⟩ := window_of_inv m hinv
  rw [hw] at hw'
  cases hw'
  obtain ⟨h1, h2, _⟩ := buildRequest_shape w req tagID bufferBytes args hreq
  exact ⟨by simp [received, h1, hlen], by simp [received, overwrite_length, h2, hcap]⟩

/-- The reply code has its top bit set exactly when masking it with
`replySuccess` gives `replySuccess`. -/
theorem replySuccess_mask (r : Nat) : r &&& replySuccess = replySuccess ↔ r.testBit 31 = true := by
  have h := Nat.and_two_pow r 31
  have e : replySuccess = 2 ^ 31 := by decide
  rw [e, h]
  cases r.testBit 31 <;> simp

/-- C6: after a successful ioctl that leaves `r` in word 1 of the window: if
`r = 0x80000001`, `Do` fails with `ErrRequestBuffer`, whatever the body holds;
otherwise, if the top bit of `r` is clear, `Do` fails with the unexpected
response code error that carries `r`; otherwise `Do` returns what the decode
loop gives on the words from index 2. -/
theorem Do_reply_code (dev : Device) (m : Mailbox) (tagID : Nat) (bufferBytes : Int)
    (args : List Nat) (w req : Slice) (mem : List Nat) (r : Nat) (hinv : m.Inv)
    (hw : m.window = some w) (hreq : buildRequest w tagID bufferBytes args = some req)
    (hdev : dev m.f req.data = .ok mem) (hr : (received req mem).index 1 = some r) :
    (r = 0x80000001 → (m.Do dev tagID bufferBytes args).1 = .error .requestBuffer) ∧
      (r ≠ 0x80000001 → r.testBit 31 = false →
        (m.Do dev tagID bufferBytes args).1 = .error (.unexpectedResponseCode r)) ∧
      (r ≠ 0x80000001 → r.testBit 31 = true →
        ∃ b, (received req mem).sliceFrom 2 = some b ∧ b.words = (received req mem).words.drop 2 ∧
          (m.Do dev tagID bufferBytes args).1 = decodeTags b []) := by
  obtain ⟨hlen, hcap⟩ := received_shape m tagID bufferBytes args w req mem hinv hw hreq
  rw [Do_of_ioctl_ok dev m tagID bufferBytes args w req mem hw hreq hdev]
  have h16 : (received req mem).sliceTo 16 = some ⟨(received req mem).data, 16⟩ := by
    simp only [Slice.sliceTo, Slice.slice, Slice.cap, hcap]
    rw [if_pos (by omega)]
    simp
  refine ⟨?_, ?_, ?_⟩
  · intro h
    simp [checkReply, h16, hr, h, replyFail]
  · intro h ht
    have hm : r &&& replySuccess ≠ replySuccess := by
      rw [Ne, replySuccess_mask, ht]
      simp
    simp [checkReply, h16, hr, replyFail, h, hm]
  · intro h ht
    have hm : r &&& replySuccess = replySuccess := (replySuccess_mask r).mpr ht
    refine ⟨⟨(received req mem).data.drop 2, 30⟩, ?_, ?_, ?_⟩
    · simp [Slice.sliceFrom, Slice.slice, Slice.cap, hlen, hcap]
    · simp [Slice.words, hlen, List.drop_take]
    · simp [checkReply, h16, hr, replyFail, h, hm, Slice.sliceFrom, Slice.slice, Slice.cap,
        hlen, hcap]

/-- A device that answers `0x80000001` makes `Do` fail with
`ErrRequestBuffer`, and one that answers 0 with the unexpected response code
error. -/
theorem Do_reply_code_witness :
    (Mailbox.opened 3 8).Inv ∧
      ((Mailbox.opened 3 8).Do (fun _ _ => .ok [128, 0x80000001, 1, 4, 0x80000004, 7]) 1 4 []).1 =
        .error .requestBuffer :=
  ⟨opened_inv 3 8,
    (Do_reply_code (fun _ _ => .ok [128, 0x80000001, 1, 4, 0x80000004, 7]) (Mailbox.opened 3 8)
      1 4 [] _ _ [128, 0x80000001, 1, 4, 0x80000004, 7] 0x80000001 (opened_inv 3 8) rfl rfl rfl
      (by decide)).1 rfl⟩

/-- When the reply has an accepted reply code and its body starts with the
end marker, `Do` returns no tags and no error, and `getUint32` then reads
`tags[0]` of an empty list: it panics.  The same holds for
`GetFirmwareRevision`, `GetBoardModel` and `GetBoardRevision`. -/
theorem getUint32_panics_of_no_tags (dev : Device) (m : Mailbox) (tagID : Nat) (w req : Slice)
    (mem : List Nat) (r : Nat) (hinv : m.Inv) (hw : m.window = some w)
    (hreq : buildRequest w tagID 4 [] = some req) (hdev : dev m.f req.data = .ok mem)
    (hr : (received req mem).index 1 = some r) (hne : r ≠ replyFail)
    (hs : r &&& replySuccess = replySuccess) (h0 : (received req mem).index 2 = some 0) :
    (m.Do dev tagID 4 []).1 = .ok [] ∧ (m.getUint32 dev tagID).1 = .panic ∧
      (tagID = TagGetFirmwareRevision → (m.GetFirmwareRevision dev).1 = .panic) ∧
      (tagID = TagGetBoardModel → (m.GetBoardModel dev).1 = .panic) ∧
      (tagID = TagGetBoardRevision → (m.GetBoardRevision dev).1 = .panic) := by
  obtain ⟨hlen, hcap⟩ := received_shape m tagID 4 [] w req mem hinv hw hreq
  have hdo := Do_of_ioctl_ok dev m tagID 4 [] w req mem hw hreq hdev
  have h16 : (received req mem).sliceTo 16 = some ⟨(received req mem).data, 16⟩ := by
    simp only [Slice.sliceTo, Slice.slice, Slice.cap, hcap]
    rw [if_pos (by omega)]
    simp
  have hb0 : Slice.index ⟨(received req mem).data.drop 2, 30⟩ 0 = some 0 := by
    unfold Slice.index at h0 ⊢
    split at h0
    · rw [if_pos (by show 0 < 30; omega), List.getElem?_drop]
      exact h0
    · cases h0
  have hcheck : checkReply (received req mem) = .ok [] := by
    have hdec := (decodeTags_of_zero _ hb0)
    simp [checkReply, h16, hr, hne, hs, Slice.sliceFrom, Slice.slice, Slice.cap, hlen, hcap,
      hdec]
  have hget : (m.getUint32 dev tagID).1 = .panic := by
    unfold Mailbox.getUint32
    rw [hdo, hcheck]
    rfl
  refine ⟨by rw [hdo, hcheck], hget, ?_, ?_, ?_⟩
  · rintro rfl
    exact hget
  · rintro rfl
    exact hget
  · rintro rfl
    exact hget

/-- C8 (fails on the code): a device answers the firmware revision request
with the success code `0x80000000` and a body that starts with the end marker.
`Do` returns no tags and no error, and `getUint32`, and with it
`GetFirmwareRevision`, panics with an index out of range instead of returning
an error. -/
theorem getUint32_no_tags :
    ((Mailbox.opened 3 8).Do (fun _ _ => .ok [128, 0x80000000, 0]) 1 4 []).1 = .ok [] ∧
      ((Mailbox.opened 3 8).getUint32 (fun _ _ => .ok [128, 0x80000000, 0]) 1).1 = .panic ∧
      ((Mailbox.opened 3 8).GetFirmwareRevision (fun _ _ => .ok [128, 0x80000000, 0])).1 =
        .panic :=
  have h := getUint32_panics_of_no_tags (fun _ _ => .ok [128, 0x80000000, 0])
    (Mailbox.opened 3 8) 1 _ _ [128, 0x80000000, 0] 0x80000000 (opened_inv 3 8) rfl rfl rfl
    (by decide) (by decide) (by decide) (by decide)
  ⟨h.1, h.2.1, h.2.2.1 rfl⟩

/-- Two tags and the end marker: the loop returns both, laid out one after
the other. -/
theorem decodeTags_layout_witness :
    decodeTags (Slice.ofList [1, 4, 0x80000004, 0xB02DF2, 2, 0, 0x80000000, 0]) [] =
        .ok [⟨[1, 4, 0x80000004, 0xB02DF2, 2, 0, 0x80000000, 0], 4⟩,
          ⟨[2, 0, 0x80000000, 0], 3⟩] ∧
      (([⟨[1, 4, 0x80000004, 0xB02DF2, 2, 0, 0x80000000, 0], 4⟩,
          ⟨[2, 0, 0x80000000, 0], 3⟩] : List Tag).map Slice.words).flatten =
        [1, 4, 0x80000004, 0xB02DF2, 2, 0, 0x80000000] ∧
      (Slice.ofList [1, 4, 0x80000004, 0xB02DF2, 2, 0, 0x80000000, 0]).index 7 = some 0 :=
  have h : decodeTags (Slice.ofList [1, 4, 0x80000004, 0xB02DF2, 2, 0, 0x80000000, 0]) [] =
      .ok [⟨[1, 4, 0x80000004, 0xB02DF2, 2, 0, 0x80000000, 0], 4⟩,
        ⟨[2, 0, 0x80000000, 0], 3⟩] := by
    rw [decodeTags_of_tag _ ⟨[2, 0, 0x80000000, 0], 4⟩ [] _
      (by decide : ReadTag _ = .ok ⟨[1, 4, 0x80000004, 0xB02DF2, 2, 0, 0x80000000, 0], 4⟩)
      (by decide) (by decide)]
    rw [decodeTags_of_tag _ ⟨[0], 1⟩ _ _
      (by decide : ReadTag _ = .ok ⟨[2, 0, 0x80000000, 0], 3⟩) (by decide) (by decide)]
    exact decodeTags_of_end _ _ EndTag (by decide) (by decide)
  ⟨h, by decide, (decodeTags_layout _ _ h).2.1⟩

/-! ## Fields of a tag -/

/-- In a well-formed slice every index below the length holds a word. -/
theorem index_of_WF (t : Slice) (hwf : t.WF) (i : Nat) (hi : i < t.len) :
    ∃ x, t.index i = some x ∧ t.data[i]? = some x := by
  have hd : i < t.data.length := Nat.lt_of_lt_of_le hi hwf
  refine ⟨t.data[i], ?_, ?_⟩
  · simp [Slice.index, hi, hd]
  · simp [hd]

/-- Masking with `0x80000000` tests bit 31. -/
theorem mask_top_bit (c : Nat) : ((c &&& 0x80000000) == 0x80000000) = c.testBit 31 := by
  have h := Nat.and_two_pow c 31
  have e : (0x80000000 : Nat) = 2 ^ 31 := by decide
  rw [e, h]
  cases c.testBit 31 <;> simp

/-- Masking with `0x7FFFFFFF` keeps the lower 31 bits. -/
theorem mask_low_bits (c : Nat) : c &&& 0x7FFFFFFF = c % 2 ^ 31 :=
  Nat.and_pow_two_sub_one_eq_mod c 31

/-- The accessors of a valid tag of at least 3 words, in terms of its first
three words. -/
theorem accessors_of_valid (t : Tag) (hwf : t.WF) (hv : t.IsValid = some true)
    (h3 : 3 ≤ t.len) :
    ∃ a b c, t.index 0 = some a ∧ t.index 1 = some b ∧ t.index 2 = some c ∧
      t.len = 3 + b / 4 ∧
      t.ID = some a ∧ t.Cap = some b ∧ t.IsResponse = some (c.testBit 31) ∧
      t.Len = some (if c.testBit 31 then c % 2 ^ 31 else 0) := by
  obtain ⟨a, ha, _⟩ := index_of_WF t hwf 0 (by omega)
  obtain ⟨b, hb, _⟩ := index_of_WF t hwf 1 (by omega)
  obtain ⟨c, hc, _⟩ := index_of_WF t hwf 2 (by omega)
  have hsz : t.len = 3 + b / 4 := by
    unfold Tag.IsValid at hv
    rw [if_neg (by omega), if_neg (by omega), if_neg (by omega), hb] at hv
    by_contra hne
    simp [hne] at hv
  have hresp : t.IsResponse = some (c.testBit 31) := by
    simp only [Tag.IsResponse, hv, hc, mask_top_bit]
  refine ⟨a, b, c, ha, hb, hc, hsz, ?_, ?_, hresp, ?_⟩
  · simp only [Tag.ID, hv, ha]
  · simp only [Tag.Cap, hv, hb]
  · simp only [Tag.Len, hv, hresp, hc]
    cases c.testBit 31 <;> simp [mask_low_bits]

/-- C11: for every valid tag `t` of at least 3 words, `ID() = t[0]`,
`Cap() = t[1]`, `IsResponse()` holds exactly when bit 31 of `t[2]` is set, and
`Len()` is `t[2] mod 2^31` when `IsResponse()` holds and 0 otherwise.  For the
captured tag `[1, 4, 0x80000004, 0x00B02DF2]` this gives `ID` 1, `Len` 4 and
`Value` `[0x00B02DF2]`. -/
theorem tag_fields (t : Tag) (hwf : t.WF) (hv : t.IsValid = some true) (h3 : 3 ≤ t.len) :
    (∃ a b c, t.index 0 = some a ∧ t.index 1 = some b ∧ t.index 2 = some c ∧
      t.ID = some a ∧ t.Cap = some b ∧ t.IsResponse = some (c.testBit 31) ∧
      t.Len = some (if c.testBit 31 then c % 2 ^ 31 else 0)) ∧
    (Tag.ID (Slice.ofList [1, 4, 0x80000004, 0x00B02DF2]) = some 1 ∧
      Tag.Len (Slice.ofList [1, 4, 0x80000004, 0x00B02DF2]) = some 4 ∧
      (Tag.Value (Slice.ofList [1, 4, 0x80000004, 0x00B02DF2])).map Slice.words =
        some [0x00B02DF2]) := by
  obtain ⟨a, b, c, ha, hb, hc, _, h⟩ := accessors_of_valid t hwf hv h3
  exact ⟨⟨a, b, c, ha, hb, hc, h⟩, by decide⟩

/-- The accessors on a response tag for the power state of device 0. -/
theorem tag_fields_witness :
    (Slice.ofList [0x20001, 8, 0x80000008, 0, 1]).WF ∧
      Tag.IsValid (Slice.ofList [0x20001, 8, 0x80000008, 0, 1]) = some true ∧
      Tag.ID (Slice.ofList [0x20001, 8, 0x80000008, 0, 1]) = some 0x20001 ∧
      Tag.Cap (Slice.ofList [0x20001, 8, 0x80000008, 0, 1]) = some 8 ∧
      Tag.IsResponse (Slice.ofList [0x20001, 8, 0x80000008, 0, 1]) = some true ∧
      Tag.Len (Slice.ofList [0x20001, 8, 0x80000008, 0, 1]) = some 8 := by
  obtain ⟨⟨a, b, c, ha, hb, hc, hid, hcap, hresp, hlen⟩, _⟩ :=
    tag_fields (Slice.ofList [0x20001, 8, 0x80000008, 0, 1]) (by decide) (by decide)
      (by decide)
  have ea : a = 0x20001 := by
    have : (Slice.ofList [0x20001, 8, 0x80000008, 0, 1]).index 0 = some 0x20001 := by decide
    rw [this] at ha
    exact (Option.some.inj ha).symm
  have eb : b = 8 := by
    have : (Slice.ofList [0x20001, 8, 0x80000008, 0, 1]).index 1 = some 8 := by decide
    rw [this] at hb
    exact (Option.some.inj hb).symm
  have ec : c = 0x80000008 := by
    have : (Slice.ofList [0x20001, 8, 0x80000008, 0, 1]).index 2 = some 0x80000008 := by decide
    rw [this] at hc
    exact (Option.some.inj hc).symm
  subst ea eb ec
  exact ⟨by decide, by decide, hid, hcap, hresp, hlen⟩

/-! ## The getters -/

/-- When `Do` returns tags, they are what the decode loop gave on some
slice. -/
theorem Do_ok_decode (dev : Device) (m : Mailbox) (tagID : Nat) (bufferBytes : Int)
    (args : List Nat) (tags : List Tag) (h : (m.Do dev tagID bufferBytes args).1 = .ok tags) :
    ∃ b, decodeTags b [] = .ok tags := by
  unfold Mailbox.Do at h
  split at h
  · cases h
  · split at h
    · cases h
    · split at h
      · cases h
      · simp only [checkReply] at h
        split at h
        · cases h
        · split at h
          · cases h
          · split at h
            · cases h
            · split at h
              · cases h
              · split at h
                · cases h
                · rename_i b _
                  exact ⟨b, h⟩

/-- A tag that the decode loop returned is a well-formed slice of at least 3
words. -/
theorem decoded_tag_WF (t : Tag) (hv : t.IsValid = some true) (he : t.IsEnd = false) (c : Nat)
    (hc : t.index 1 = some c) (hw : t.words.length = 3 + c / 4) : t.WF ∧ 3 ≤ t.len := by
  unfold Tag.IsValid at hv
  split at hv
  · cases hv
  · split at hv
    · rw [he] at hv
      cases hv
    · split at hv
      · cases hv
      · rw [hc] at hv
        have hsz : t.len = 3 + c / 4 := by
          by_contra hne
          simp [hne] at hv
        simp only [Slice.words, List.length_take] at hw
        exact ⟨by unfold Slice.WF; omega, by omega⟩

/-- The value of a valid response tag whose length does not exceed its
capacity: `Len()/4` words, the ones that follow the header. -/
theorem value_of_response (t : Tag) (n c k : Nat) (hwf : t.WF) (hv : t.IsValid = some true)
    (h3 : 3 ≤ t.len) (hlen : t.Len = some n) (hcap : t.Cap = some c) (hnc : n ≤ c)
    (hk : k < n / 4) :
    ∃ v x, t.Value = some v ∧ v.len = n / 4 ∧ v.index k = some x ∧ t.index (3 + k) = some x := by
  obtain ⟨a, b, l, _, hb, _, hsz, _, hcap', _, _⟩ := accessors_of_valid t hwf hv h3
  rw [hcap] at hcap'
  cases hcap'
  have hwf' : t.len ≤ t.data.length := hwf
  obtain ⟨x, hx, hdx⟩ := index_of_WF t hwf (3 + k) (by omega)
  refine ⟨⟨t.data.drop 3, n / 4⟩, x, ?_, rfl, ?_, hx⟩
  · simp only [Tag.Value, hv, hlen, Slice.slice, Slice.cap]
    rw [if_pos ⟨by omega, by omega⟩]
    simp
  · simp only [Slice.index, hk, if_true, List.getElem?_drop]
    exact hdx

/-- In the first tag that `Do` returns, a response whose length does not
exceed its capacity, the `k`-th value word is word `3 + k` of the tag. -/
theorem first_tag_value (dev : Device) (m : Mailbox) (tagID : Nat) (bufferBytes : Int)
    (args : List Nat) (t : Tag) (rest : List Tag) (n c k : Nat)
    (hdo : (m.Do dev tagID bufferBytes args).1 = .ok (t :: rest))
    (hlen : t.Len = some n) (hcap : t.Cap = some c) (hnc : n ≤ c) (hk : k < n / 4) :
    ∃ v x, t.Value = some v ∧ v.index k = some x ∧ t.index (3 + k) = some x := by
  obtain ⟨b, hb⟩ := Do_ok_decode dev m tagID bufferBytes args (t :: rest) hdo
  obtain ⟨new, hnew, _, _, hall⟩ := decodeTags_acc b.len b [] (t :: rest) (Nat.le_refl _) hb
  rw [List.nil_append] at hnew
  subst hnew
  obtain ⟨hv, he, c', hc', hw⟩ := hall t (List.mem_cons_self _ _)
  obtain ⟨hwf, h3⟩ := decoded_tag_WF t hv he c' hc' hw
  obtain ⟨v, x, hval, _, hvx, htx⟩ := value_of_response t n c k hwf hv h3 hlen hcap hnc hk
  exact ⟨v, x, hval, hvx, htx⟩

/-- With an accepted reply code, the check of the reply is the decode loop on
the words from index 2. -/
theorem checkReply_accepted (buf b : Slice) (r : Nat) (h16 : 16 ≤ buf.data.length)
    (hr : buf.index 1 = some r) (hne : r ≠ replyFail) (hs : r &&& replySuccess = replySuccess)
    (hb : buf.sliceFrom 2 = some b) : checkReply buf = decodeTags b [] := by
  have h16' : buf.sliceTo 16 = some ⟨buf.data, 16⟩ := by
    simp only [Slice.sliceTo, Slice.slice, Slice.cap]
    rw [if_pos ⟨by omega, h16⟩]
    simp
  simp [checkReply, h16', hr, hne, hs, hb]

/-- The outcome of `Do` once the ioctl has succeeded. -/
theorem Do_fst_of_ioctl_ok (dev : Device) (m : Mailbox) (tagID : Nat) (bufferBytes : Int)
    (args : List Nat) (w req : Slice) (mem : List Nat) (hw : m.window = some w)
    (hreq : buildRequest w tagID bufferBytes args = some req)
    (hdev : dev m.f req.data = .ok mem) :
    (m.Do dev tagID bufferBytes args).1 = checkReply (received req mem) := by
  rw [Do_of_ioctl_ok dev m tagID bufferBytes args w req mem hw hreq hdev]

/-- The captured firmware revision reply `[1, 4, 0x80000004, 0x00B02DF2, 0]`
decodes to its one tag. -/
theorem Do_firmware_reply :
    ((Mailbox.opened 3 8).Do
        (fun _ _ => .ok [128, 0x80000000, 1, 4, 0x80000004, 0x00B02DF2, 0]) 1 4 []).1 =
      .ok [⟨[1, 4, 0x80000004, 0x00B02DF2] ++ List.replicate 34 0, 4⟩] := by
  rw [Do_fst_of_ioctl_ok _ (Mailbox.opened 3 8) 1 4 [] _ _ _ rfl rfl rfl]
  rw [checkReply_accepted _ ⟨[1, 4, 0x80000004, 0x00B02DF2] ++ List.replicate 34 0, 30⟩
    0x80000000 (by decide) (by decide) (by decide) (by decide) (by decide)]
  rw [decodeTags_of_tag _ ⟨List.replicate 34 0, 26⟩ []
    ⟨[1, 4, 0x80000004, 0x00B02DF2] ++ List.replicate 34 0, 4⟩ (by decide) (by decide)
    (by decide)]
  exact decodeTags_of_end _ _ EndTag (by decide) (by decide)

/-- What `getUint32` returns when the first tag is a response whose length is
at least 4 and at most its capacity. -/
theorem getUint32_of_first_tag (dev : Device) (m : Mailbox) (tagID : Nat) (t : Tag)
    (rest : List Tag) (n c : Nat) (hdo : (m.Do dev tagID 4 []).1 = .ok (t :: rest))
    (hlen : t.Len = some n) (hcap : t.Cap = some c) (h4 : 4 ≤ n) (hnc : n ≤ c) :
    ∃ x, t.index 3 = some x ∧ (m.getUint32 dev tagID).1 = .ok x := by
  obtain ⟨v, x, hval, hvx, htx⟩ :=
    first_tag_value dev m tagID 4 [] t rest n c 0 hdo hlen hcap hnc (by omega)
  refine ⟨x, htx, ?_⟩
  unfold Mailbox.getUint32
  cases hd : m.Do dev tagID 4 [] with
  | mk o m' =>
    rw [hd] at hdo
    simp only at hdo
    subst hdo
    simp [hval, hvx]

/-- What `getUint32ByID` returns when the first tag is a response whose length
is at least 8 and at most its capacity. -/
theorem getUint32ByID_of_first_tag (dev : Device) (m : Mailbox) (tagID s : Nat) (t : Tag)
    (rest : List Tag) (n c : Nat) (hdo : (m.Do dev tagID 8 [s]).1 = .ok (t :: rest))
    (hlen : t.Len = some n) (hcap : t.Cap = some c) (h8 : 8 ≤ n) (hnc : n ≤ c) :
    ∃ x, t.index 4 = some x ∧ (m.getUint32ByID dev tagID s).1 = .ok x := by
  obtain ⟨v, x, hval, hvx, htx⟩ :=
    first_tag_value dev m tagID 8 [s] t rest n c 1 hdo hlen hcap hnc (by omega)
  refine ⟨x, htx, ?_⟩
  unfold Mailbox.getUint32ByID
  cases hd : m.Do dev tagID 8 [s] with
  | mk o m' =>
    rw [hd] at hdo
    simp only at hdo
    subst hdo
    simp [hval, hvx]

/-- What `GetPowerState` returns in the same situation: the lower two bits of
word 4 of the first tag. -/
theorem GetPowerState_of_first_tag (dev : Device) (m : Mailbox) (s : Nat) (t : Tag)
    (rest : List Tag) (n c : Nat)
    (hdo : (m.Do dev TagGetPowerState 8 [s]).1 = .ok (t :: rest))
    (hlen : t.Len = some n) (hcap : t.Cap = some c) (h8 : 8 ≤ n) (hnc : n ≤ c) :
    ∃ x, t.index 4 = some x ∧ (m.GetPowerState dev s).1 = .ok (x &&& 0x03) := by
  obtain ⟨v, x, hval, hvx, htx⟩ :=
    first_tag_value dev m TagGetPowerState 8 [s] t rest n c 1 hdo hlen hcap hnc (by omega)
  refine ⟨x, htx, ?_⟩
  unfold Mailbox.GetPowerState
  cases hd : m.Do dev TagGetPowerState 8 [s] with
  | mk o m' =>
    rw [hd] at hdo
    simp only at hdo
    subst hdo
    simp [hval, hvx]

/-- The firmware revision read from the captured reply. -/
theorem GetFirmwareRevision_captured :
    ((Mailbox.opened 3 8).GetFirmwareRevision
        (fun _ _ => .ok [128, 0x80000000, 1, 4, 0x80000004, 0x00B02DF2, 0])).1 =
      .ok 0x00B02DF2 := by
  obtain ⟨x, hx, hg⟩ := getUint32_of_first_tag
    (fun _ _ => .ok [128, 0x80000000, 1, 4, 0x80000004, 0x00B02DF2, 0]) (Mailbox.opened 3 8) 1
    ⟨[1, 4, 0x80000004, 0x00B02DF2] ++ List.replicate 34 0, 4⟩ [] 4 4 Do_firmware_reply
    (by decide) (by decide) (by decide) (by decide)
  have e : Slice.index ⟨[1, 4, 0x80000004, 0x00B02DF2] ++ List.replicate 34 0, 4⟩ 3 =
      some 0x00B02DF2 := by decide
  rw [e] at hx
  cases hx
  exact hg

/-- The captured power state reply `[0x20001, 8, 0x80000008, 0, 1, 0]` decodes
to its one tag. -/
theorem Do_power_reply :
    ((Mailbox.opened 3 8).Do
        (fun _ _ => .ok [128, 0x80000000, 0x20001, 8, 0x80000008, 0, 1, 0])
        TagGetPowerState 8 [0]).1 =
      .ok [⟨[0x20001, 8, 0x80000008, 0, 1] ++ List.replicate 33 0, 5⟩] := by
  rw [Do_fst_of_ioctl_ok _ (Mailbox.opened 3 8) TagGetPowerState 8 [0] _ _ _ rfl rfl rfl]
  rw [checkReply_accepted _ ⟨[0x20001, 8, 0x80000008, 0, 1] ++ List.replicate 33 0, 30⟩
    0x80000000 (by decide) (by decide) (by decide) (by decide) (by decide)]
  rw [decodeTags_of_tag _ ⟨List.replicate 33 0, 25⟩ []
    ⟨[0x20001, 8, 0x80000008, 0, 1] ++ List.replicate 33 0, 5⟩ (by decide) (by decide)
    (by decide)]
  exact decodeTags_of_end _ _ EndTag (by decide) (by decide)

/-- The power state read from the captured reply. -/
theorem GetPowerState_captured :
    ((Mailbox.opened 3 8).GetPowerState
        (fun _ _ => .ok [128, 0x80000000, 0x20001, 8, 0x80000008, 0, 1, 0]) 0).1 = .ok 1 := by
  obtain ⟨x, hx, hg⟩ := GetPowerState_of_first_tag
    (fun _ _ => .ok [128, 0x80000000, 0x20001, 8, 0x80000008, 0, 1, 0]) (Mailbox.opened 3 8) 0
    ⟨[0x20001, 8, 0x80000008, 0, 1] ++ List.replicate 33 0, 5⟩ [] 8 8 Do_power_reply
    (by decide) (by decide) (by decide) (by decide)
  have e : Slice.index ⟨[0x20001, 8, 0x80000008, 0, 1] ++ List.replicate 33 0, 5⟩ 4 =
      some 1 := by decide
  rw [e] at hx
  cases hx
  exact hg

/-- A clock rate reply whose first value word, 4, is not the clock 3 that was
asked for. -/
theorem Do_clock_reply :
    ((Mailbox.opened 3 8).Do
        (fun _ _ => .ok [128, 0x80000000, 0x30002, 8, 0x80000008, 4, 700000000, 0])
        0x30002 8 [3]).1 =
      .ok [⟨[0x30002, 8, 0x80000008, 4, 700000000] ++ List.replicate 33 0, 5⟩] := by
  rw [Do_fst_of_ioctl_ok _ (Mailbox.opened 3 8) 0x30002 8 [3] _ _ _ rfl rfl rfl]
  rw [checkReply_accepted _ ⟨[0x30002, 8, 0x80000008, 4, 700000000] ++ List.replicate 33 0, 30⟩
    0x80000000 (by decide) (by decide) (by decide) (by decide) (by decide)]
  rw [decodeTags_of_tag _ ⟨List.replicate 33 0, 25⟩ []
    ⟨[0x30002, 8, 0x80000008, 4, 700000000] ++ List.replicate 33 0, 5⟩ (by decide) (by decide)
    (by decide)]
  exact decodeTags_of_end _ _ EndTag (by decide) (by decide)

/-- C12: when `Do` returns tags for `getUint32` (the reply has an accepted
reply code and its body decodes without error) and the first tag is a response
tag with `4 <= Len <= Cap`, `getUint32` returns word 3 of that tag, its first
value word, and no error; for the reply body
`[1, 4, 0x80000004, 0x00B02DF2, 0]`, `GetFirmwareRevision` returns
`0x00B02DF2`. -/
theorem getUint32_value (dev : Device) (m : Mailbox) (tagID : Nat) (t : Tag)
    (rest : List Tag) (n c : Nat) (hdo : (m.Do dev tagID 4 []).1 = .ok (t :: rest))
    (hresp : t.IsResponse = some true) (hlen : t.Len = some n) (hcap : t.Cap = some c)
    (h4 : 4 ≤ n) (hnc : n ≤ c) :
    (∃ x, t.index 3 = some x ∧ (m.getUint32 dev tagID).1 = .ok x) ∧
      ((Mailbox.opened 3 8).GetFirmwareRevision
          (fun _ _ => .ok [128, 0x80000000, 1, 4, 0x80000004, 0x00B02DF2, 0])).1 =
        .ok 0x00B02DF2 := by
  have _ := hresp
  exact ⟨getUint32_of_first_tag dev m tagID t rest n c hdo hlen hcap h4 hnc,
    GetFirmwareRevision_captured⟩

/-- The firmware revision is word 3 of the one tag of the captured reply. -/
theorem getUint32_value_witness :
    ∃ x, Slice.index ⟨[1, 4, 0x80000004, 0x00B02DF2] ++ List.replicate 34 0, 4⟩ 3 = some x ∧
      ((Mailbox.opened 3 8).getUint32
        (fun _ _ => .ok [128, 0x80000000, 1, 4, 0x80000004, 0x00B02DF2, 0]) 1).1 = .ok x :=
  (getUint32_value (fun _ _ => .ok [128, 0x80000000, 1, 4, 0x80000004, 0x00B02DF2, 0])
    (Mailbox.opened 3 8) 1 ⟨[1, 4, 0x80000004, 0x00B02DF2] ++ List.replicate 34 0, 4⟩ [] 4 4
    Do_firmware_reply (by decide) (by decide) (by decide) (by decide) (by decide)).1

/-- C13: when `Do` returns tags for `getUint32ByID(tagID, s)` and the first
tag is a response tag with `8 <= Len <= Cap`, `getUint32ByID` returns word 4
of that tag, its second value word; nothing is asked of the first value word,
so it need not echo `s`.  For the reply body
`[0x20001, 8, 0x80000008, 0, 1, 0]`, `GetPowerState(0)` returns 1. -/
theorem getUint32ByID_value (dev : Device) (m : Mailbox) (tagID s : Nat) (t : Tag)
    (rest : List Tag) (n c : Nat) (hdo : (m.Do dev tagID 8 [s]).1 = .ok (t :: rest))
    (hresp : t.IsResponse = some true) (hlen : t.Len = some n) (hcap : t.Cap = some c)
    (h8 : 8 ≤ n) (hnc : n ≤ c) :
    (∃ x, t.index 4 = some x ∧ (m.getUint32ByID dev tagID s).1 = .ok x) ∧
      ((Mailbox.opened 3 8).GetPowerState
          (fun _ _ => .ok [128, 0x80000000, 0x20001, 8, 0x80000008, 0, 1, 0]) 0).1 = .ok 1 := by
  have _ := hresp
  exact ⟨getUint32ByID_of_first_tag dev m tagID s t rest n c hdo hlen hcap h8 hnc,
    GetPowerState_captured⟩

/-- The rate of clock 3 is read from a reply whose first value word is 4. -/
theorem getUint32ByID_value_witness :
    Slice.index ⟨[0x30002, 8, 0x80000008, 4, 700000000] ++ List.replicate 33 0, 5⟩ 3 = some 4 ∧
      ∃ x, Slice.index ⟨[0x30002, 8, 0x80000008, 4, 700000000] ++ List.replicate 33 0, 5⟩ 4 =
          some x ∧
        ((Mailbox.opened 3 8).getUint32ByID
          (fun _ _ => .ok [128, 0x80000000, 0x30002, 8, 0x80000008, 4, 700000000, 0])
          0x30002 3).1 = .ok x :=
  ⟨by decide,
    (getUint32ByID_value
      (fun _ _ => .ok [128, 0x80000000, 0x30002, 8, 0x80000008, 4, 700000000, 0])
      (Mailbox.opened 3 8) 0x30002 3
      ⟨[0x30002, 8, 0x80000008, 4, 700000000] ++ List.replicate 33 0, 5⟩ [] 8 8
      Do_clock_reply (by decide) (by decide) (by decide) (by decide) (by decide)).1⟩

/-! ## The request in the window -/

/-- The request that `Do` builds in the window of a mailbox, for at most 27
arguments: it is built without a panic, keeps the 32 words of the window, and
holds the five header words and then all the arguments. -/
theorem request_contents (m : Mailbox) (tagID : Nat) (bufferBytes : Int) (args : List Nat)
    (hinv : m.Inv) (hargs : args.length ≤ 27) :
    ∃ w req, m.window = some w ∧ w.len = 32 ∧
      buildRequest w tagID bufferBytes args = some req ∧ req.len = 32 ∧
      req.data.length = 32 + alignOffset m.addr ∧
      req.index 0 = some 128 ∧ req.index 1 = some 0 ∧ req.index 2 = some tagID ∧
      req.index 3 = some (valueBufferWord bufferBytes args.length) ∧ req.index 4 = some 0 ∧
      ∀ i, i < args.length → req.index (5 + i) = args[i]? := by
  obtain ⟨w, hw, hwlen, hwcap⟩ := window_of_inv m hinv
  have hreq := buildRequest_eq w tagID bufferBytes args
  rw [if_pos ⟨by omega, by omega⟩, hwlen,
    List.take_of_length_le (by show args.length ≤ 32 - 5; omega)] at hreq
  obtain ⟨h0, h1, h2, h3, h4⟩ := header_getElem? w.data ((32 % 2 ^ 32) * 4 % 2 ^ 32)
    RequestCodeDefault tagID (valueBufferWord bufferBytes args.length) 0 args (by omega)
  generalize hD : Slice.overwrite _ 5 args = D at hreq h0 h1 h2 h3 h4
  have hDlen : D.length = 32 + alignOffset m.addr := by
    rw [← hD, overwrite_length]
    simp [hwcap]
  have hargsD : ∀ i, i < args.length → D[5 + i]? = args[i]? := by
    intro i hi
    rw [← hD]
    exact overwrite_getElem?_src _ 5 args i hi (by simp; omega)
  refine ⟨w, ⟨D, 32⟩, hw, hwlen, hreq, rfl, hDlen, ?_, ?_, ?_, ?_, ?_, ?_⟩
  · simpa [Slice.index] using h0
  · simpa [Slice.index, RequestCodeDefault] using h1
  · simpa [Slice.index] using h2
  · simpa [Slice.index] using h3
  · simpa [Slice.index] using h4
  · intro i hi
    simp only [Slice.index]
    rw [if_pos (by omega)]
    exact hargsD i hi

/-- Once the request is built, the outcome of `Do` is that of the device and
of the check of its reply: nothing else is tested before the ioctl. -/
theorem Do_fst_of_request (dev : Device) (m : Mailbox) (tagID : Nat) (bufferBytes : Int)
    (args : List Nat) (w req : Slice) (hw : m.window = some w)
    (hreq : buildRequest w tagID bufferBytes args = some req) :
    (m.Do dev tagID bufferBytes args).1 =
      match dev m.f req.data with
      | .error e => .error (.errno e)
      | .ok mem => checkReply (received req mem) := by
  unfold Mailbox.Do
  simp only [hw, hreq]
  cases dev m.f req.data <;> rfl

/-- For a capacity of 32 bits and at most 27 arguments, the capacity word is
the greater of `bufferBytes` and `4 * len(args)`. -/
theorem valueBufferWord_eq_max (bufferBytes : Int) (n : Nat) (h0 : 0 ≤ bufferBytes)
    (h32 : bufferBytes < 2 ^ 32) (hn : n ≤ 27) :
    ((valueBufferWord bufferBytes n : Nat) : Int) = max bufferBytes (4 * (n : Int)) := by
  have e : (2 : Int) ^ 32 = 4294967296 := by norm_num
  unfold valueBufferWord valueBufferBytes
  rw [e] at h32 ⊢
  split <;> omega

/-- C14: for every `tagID`, every `bufferBytes` with `0 <= bufferBytes < 2^32`
and every `args` of at most 27 words, the request that `Do` hands to the
device has word 0 = 4 * (window length in words), word 1 = 0, word 2 =
`tagID`, word 3 = `max(bufferBytes, 4*len(args))`, word 4 = 0 and words
`5 .. 5+len(args)-1` equal to `args` in order. -/
theorem request_words (m : Mailbox) (tagID : Nat) (bufferBytes : Int) (args : List Nat)
    (hinv : m.Inv) (h0 : 0 ≤ bufferBytes) (h32 : bufferBytes < 2 ^ 32)
    (hargs : args.length ≤ 27) :
    ∃ w req, m.window = some w ∧ buildRequest w tagID bufferBytes args = some req ∧
      (∀ dev : Device, (m.Do dev tagID bufferBytes args).1 =
        match dev m.f req.data with
        | .error e => .error (.errno e)
        | .ok mem => checkReply (received req mem)) ∧
      req.index 0 = some (4 * w.len) ∧ req.index 1 = some 0 ∧ req.index 2 = some tagID ∧
      (∃ v : Nat, req.index 3 = some v ∧ (v : Int) = max bufferBytes (4 * (args.length : Int))) ∧
      req.index 4 = some 0 ∧ ∀ i, i < args.length → req.index (5 + i) = args[i]? := by
  obtain ⟨w, req, hw, hwlen, hreq, _, _, i0, i1, i2, i3, i4, iargs⟩ :=
    request_contents m tagID bufferBytes args hinv hargs
  refine ⟨w, req, hw, hreq, fun dev => Do_fst_of_request dev m tagID bufferBytes args w req hw hreq,
    by rw [hwlen]; exact i0, i1, i2, ⟨_, i3, valueBufferWord_eq_max bufferBytes args.length h0 h32 hargs⟩,
    i4, iargs⟩

/-- The request for the rate of clock 3, built over a fresh window. -/
theorem request_words_witness :
    (Mailbox.opened 3 8).Inv ∧ (0 : Int) ≤ 8 ∧ (8 : Int) < 2 ^ 32 ∧
      ([3] : List Nat).length ≤ 27 ∧
      ∃ w req, (Mailbox.opened 3 8).window = some w ∧ buildRequest w 0x30002 8 [3] = some req ∧
        (∀ dev : Device, ((Mailbox.opened 3 8).Do dev 0x30002 8 [3]).1 =
          match dev (Mailbox.opened 3 8).f req.data with
          | .error e => .error (.errno e)
          | .ok mem => checkReply (received req mem)) ∧
        req.index 0 = some (4 * w.len) ∧ req.index 1 = some 0 ∧ req.index 2 = some 0x30002 ∧
        (∃ v : Nat, req.index 3 = some v ∧
          (v : Int) = max 8 (4 * (([3] : List Nat).length : Int))) ∧
        req.index 4 = some 0 ∧ ∀ i, i < ([3] : List Nat).length → req.index (5 + i) = [3][i]? :=
  ⟨opened_inv 3 8, by decide, by decide, by decide,
    request_words (Mailbox.opened 3 8) 0x30002 8 [3] (opened_inv 3 8) (by decide) (by decide)
      (by decide)⟩

/-- C15 (fails on the code): a first call of `Do` asks for the rate of clock
3 and the device answers `[0x30002, 8, 0x80000008, 3, 700000000, 0]`.  The
second call, `Do(1, 4)` with no arguments, writes words 0 to 4 only: the
request it hands to the device still has 3 in word 5 and 700000000 in word 6,
where the end marker of the new request belongs, whereas the same request
built in a fresh mailbox has 0 there. -/
theorem request_keeps_stale_words :
    ∃ m1 w1 req1 w0 req0,
      ((Mailbox.opened 3 8).Do
        (fun _ _ => .ok [128, 0x80000000, 0x30002, 8, 0x80000008, 3, 700000000, 0])
        0x30002 8 [3]).2 = m1 ∧
      m1.window = some w1 ∧ buildRequest w1 1 4 [] = some req1 ∧
      req1.index 5 = some 3 ∧ req1.index 6 = some 700000000 ∧
      (Mailbox.opened 3 8).window = some w0 ∧ buildRequest w0 1 4 [] = some req0 ∧
      req0.index 5 = some 0 ∧ req0.index 6 = some 0 ∧ req1 ≠ req0 :=
  ⟨_, _, _, _, _, rfl, rfl, rfl, by decide, by decide, rfl, rfl, by decide, by decide,
    by decide⟩

/-- C16, amended: `Do` makes no size check.  For every request of at most 27
arguments, whatever its capacity, `Do` builds the request without a panic and
with all its arguments, hands it to the device, and its outcome is that of the
ioctl and of the check of the reply. -/
theorem Do_without_size_check (m : Mailbox) (tagID : Nat) (bufferBytes : Int)
    (args : List Nat) (hinv : m.Inv) (hargs : args.length ≤ 27) :
    ∃ w req, m.window = some w ∧ buildRequest w tagID bufferBytes args = some req ∧
      req.index 3 = some (valueBufferWord bufferBytes args.length) ∧
      (∀ i, i < args.length → req.index (5 + i) = args[i]?) ∧
      ∀ dev : Device, (m.Do dev tagID bufferBytes args).1 =
        match dev m.f req.data with
        | .error e => .error (.errno e)
        | .ok mem => checkReply (received req mem) := by
  obtain ⟨w, req, hw, _, hreq, _, _, _, _, _, i3, _, iargs⟩ :=
    request_contents m tagID bufferBytes args hinv hargs
  exact ⟨w, req, hw, hreq, i3, iargs,
    fun dev => Do_fst_of_request dev m tagID bufferBytes args w req hw hreq⟩

/-- A request with a capacity of 1000 bytes is built and handed to the
device. -/
theorem Do_without_size_check_witness :
    (Mailbox.opened 3 8).Inv ∧ ([] : List Nat).length ≤ 27 ∧
      ∃ w req, (Mailbox.opened 3 8).window = some w ∧ buildRequest w 1 1000 [] = some req ∧
        req.index 3 = some (valueBufferWord 1000 ([] : List Nat).length) ∧
        (∀ i, i < ([] : List Nat).length → req.index (5 + i) = ([] : List Nat)[i]?) ∧
        ∀ dev : Device, ((Mailbox.opened 3 8).Do dev 1 1000 []).1 =
          match dev (Mailbox.opened 3 8).f req.data with
          | .error e => .error (.errno e)
          | .ok mem => checkReply (received req mem) :=
  ⟨opened_inv 3 8, by decide,
    Do_without_size_check (Mailbox.opened 3 8) 1 1000 [] (opened_inv 3 8) (by decide)⟩

/-- C16 as stated fails: with `bufferBytes = 1000` and no arguments the tag
needs `3 + ceil(1000/4) = 253` words and the window has 32, yet `Do` writes the
capacity 1000 into the request, invokes the device, and with a device that
answers success and an empty body returns no error. -/
theorem too_large_not_rejected :
    32 < 3 + (1000 + 3) / 4 ∧
      (∃ w req, (Mailbox.opened 3 8).window = some w ∧ w.len = 32 ∧
        buildRequest w 1 1000 [] = some req ∧ req.index 3 = some 1000) ∧
      ((Mailbox.opened 3 8).Do (fun _ _ => .ok [128, 0x80000000, 0]) 1 1000 []).1 =
        .ok [] := by
  refine ⟨by decide, ⟨_, _, rfl, rfl, rfl, by decide⟩, ?_⟩
  rw [Do_fst_of_ioctl_ok _ (Mailbox.opened 3 8) 1 1000 [] _ _ _ rfl rfl rfl]
  rw [checkReply_accepted _ ⟨[0, 1000] ++ List.replicate 36 0, 30⟩ 0x80000000 (by decide) (by decide)
    (by decide) (by decide) (by decide)]
  exact decodeTags_of_zero _ (by decide)

/-- C20: for every address of the backing store the offset is between 0 and
15, the bounds `16-offset` and `48-offset` of the window lie inside the
48-word array and are 32 apart, and the window has exactly 32 words.  So for
every request of at most 27 arguments the fixed writes to indices 0..4 are in
bounds and the size word written is 128, the read of indices 0..15 of the
reply is in bounds, and the largest request of the getters (capacity 8: 2
header words, 3 tag header words, 2 value words and the end marker, 8 words)
fits. -/
theorem window_bounds (m : Mailbox) (hinv : m.Inv) :
    alignOffset m.addr ≤ 15 ∧ windowLow m.addr ≤ windowHigh m.addr 48 ∧
      windowHigh m.addr 48 ≤ 48 ∧ windowHigh m.addr 48 - windowLow m.addr = 32 ∧
      ∃ w, m.window = some w ∧ w.len = 32 ∧ w.WF ∧
        (m.buf = none → w = ⟨m.bufUnaligned.drop (windowLow m.addr), 32⟩) ∧
        (∀ tagID bufferBytes args, args.length ≤ 27 →
          ∃ req, buildRequest w tagID bufferBytes args = some req ∧
            req.index 0 = some 128 ∧ 128 % 4 = 0 ∧
            ∀ mem, (received req mem).sliceTo 16 ≠ none ∧
              ∀ i, i < 16 → (received req mem).index i ≠ none) ∧
        2 + (3 + 8 / 4) + 1 = 8 ∧ 8 ≤ w.len := by
  have hoff : alignOffset m.addr ≤ 15 := by
    rw [alignOffset_eq_mod]
    omega
  obtain ⟨w, hw, hwlen, hwcap⟩ := window_of_inv m hinv
  refine ⟨hoff, by unfold windowLow windowHigh; omega, by unfold windowHigh; omega,
    by unfold windowLow windowHigh; omega, w, hw, hwlen, by unfold Slice.WF; omega, ?_, ?_,
    by decide, by omega⟩
  · intro hnil
    have h48 := hinv.1
    unfold Mailbox.window at hw
    rw [hnil] at hw
    simp only [Slice.slice, Slice.ofList, Slice.cap, windowLow, windowHigh, h48] at hw
    rw [if_pos (by omega)] at hw
    cases hw
    simp only [windowLow, Slice.mk.injEq, true_and]
    omega
  · intro tagID bufferBytes args hargs
    obtain ⟨w', req, hw', _, hreq, hrlen, hrcap, i0, _⟩ :=
      request_contents m tagID bufferBytes args hinv hargs
    rw [hw] at hw'
    cases hw'
    refine ⟨req, hreq, i0, by decide, ?_⟩
    intro mem
    have hlen : (received req mem).len = 32 := by simp [received, hrlen]
    have hcap : (received req mem).data.length = 32 + alignOffset m.addr := by
      simp [received, overwrite_length, hrcap]
    constructor
    · simp only [Slice.sliceTo, Slice.slice, Slice.cap, hcap]
      rw [if_pos (by omega)]
      simp
    · intro i hi
      obtain ⟨x, hx, _⟩ := index_of_WF (received req mem) (by unfold Slice.WF; omega) i
        (by omega)
      rw [hx]
      simp

/-- The window of a fresh mailbox at address 8. -/
theorem window_bounds_witness :
    (Mailbox.opened 3 8).Inv ∧ alignOffset 8 = 8 ∧ windowLow 8 = 8 ∧ windowHigh 8 48 = 40 ∧
      (Mailbox.opened 3 8).window = some ⟨List.replicate 40 0, 32⟩ ∧
      alignOffset (Mailbox.opened 3 8).addr ≤ 15 :=
  ⟨opened_inv 3 8, by decide, by decide, by decide, by decide,
    (window_bounds (Mailbox.opened 3 8) (opened_inv 3 8)).1⟩

/-! ## Open and Close -/

/-- C17: `Close` is idempotent.  On a nil mailbox, or one whose handle is nil,
it returns nil and changes nothing; after `Close` on an open mailbox the
handle is nil; and after any `Close` a further `Close` returns nil and leaves
the state unchanged. -/
theorem Close_idempotent (closeFile : Nat → Option Err) (c : Option Mailbox) :
    Mailbox.Close closeFile none = (none, none) ∧
      (∀ m : Mailbox, m.f = none → Mailbox.Close closeFile (some m) = (none, some m)) ∧
      (∀ (m : Mailbox) (fd : Nat), m.f = some fd →
        Mailbox.Close closeFile (some m) = (closeFile fd, some { m with f := none })) ∧
      Mailbox.Close closeFile (Mailbox.Close closeFile c).2 =
        (none, (Mailbox.Close closeFile c).2) := by
  refine ⟨rfl, ?_, ?_, ?_⟩
  · intro m hm
    simp [Mailbox.Close, hm]
  · intro m fd hm
    simp [Mailbox.Close, hm]
  · cases c with
    | none => rfl
    | some m =>
      cases hm : m.f with
      | none => simp [Mailbox.Close, hm]
      | some fd => simp [Mailbox.Close, hm]

/-- Closing an open mailbox twice, with a file whose `Close` fails: the first
call returns the error, the second returns nil and changes nothing. -/
theorem Close_idempotent_witness :
    Mailbox.Close (fun _ => some (.errno 5)) (some (Mailbox.opened 3 8)) =
        (some (.errno 5), some { Mailbox.opened 3 8 with f := none }) ∧
      Mailbox.Close (fun _ => some (.errno 5))
          (Mailbox.Close (fun _ => some (.errno 5)) (some (Mailbox.opened 3 8))).2 =
        (none, (Mailbox.Close (fun _ => some (.errno 5)) (some (Mailbox.opened 3 8))).2) :=
  ⟨(Close_idempotent (fun _ => some (.errno 5)) (some (Mailbox.opened 3 8))).2.2.1
      (Mailbox.opened 3 8) 3 rfl,
    (Close_idempotent (fun _ => some (.errno 5)) (some (Mailbox.opened 3 8))).2.2.2⟩

/-- Every path error that `os.OpenFile` returns comes back from `Open`
unchanged, `ENOENT` included. -/
theorem Open_pathError (e addr : Nat) :
    Open (.error (.pathError e)) addr = .error (.pathError e) := by
  simp [Open]

/-- C18 (fails on the code): when the device path does not exist,
`os.OpenFile` fails with a `*PathError` that wraps `ENOENT`.  That value is
not equal to `os.ErrNotExist`, so `Open` does not return `ErrNotImplemented`:
it returns the path error, as for every other open failure. -/
theorem Open_missing_device :
    Open (.error (.pathError ENOENT)) 8 = .error (.pathError ENOENT) ∧
      Open (.error (.pathError ENOENT)) 8 ≠ .error .notImplemented ∧
      Open (.error .osErrNotExist) 8 = .error .notImplemented ∧
      Open (.ok 3) 8 = .ok (Mailbox.opened 3 8) := by
  decide

/-! ## Termination of the decode loop -/

/-- On a well-formed slice `ReadTag` does not panic: it returns the end tag,
the error, or the first `3 + b[1]/4` words, which are at least 3 and at most
`len(b)`. -/
theorem ReadTag_cases (b : Slice) (hwf : b.WF) :
    (b.index 0 = some 0 ∧ ReadTag b = .ok EndTag) ∨
      ReadTag b = .error .tagBufferTooSmall ∨
      (∃ c, b.index 0 ≠ some 0 ∧ b.index 1 = some c ∧ 3 + c / 4 ≤ b.len ∧
        ReadTag b = .ok ⟨b.data, 3 + c / 4⟩) := by
  have hwf' : b.len ≤ b.data.length := hwf
  by_cases h0 : b.index 0 = some 0
  · exact Or.inl ⟨h0, ReadTag_zero b h0⟩
  · right
    have hne : ¬ (0 < b.len ∧ b.index 0 = some 0) := fun h => h0 h.2
    by_cases h3 : b.len < 3
    · left
      simp [ReadTag, hne, h3]
    · obtain ⟨c, hc, _⟩ := index_of_WF b hwf 1 (by omega)
      by_cases hsz : b.len < 3 + c / 4
      · left
        simp [ReadTag, hne, h3, hc, hsz]
      · right
        refine ⟨c, h0, hc, by omega, ?_⟩
        unfold ReadTag
        rw [if_neg hne, if_neg h3, hc]
        simp only [hsz, if_false, Slice.sliceTo, Slice.slice, Slice.cap]
        rw [if_pos ⟨by omega, by omega⟩]
        simp

/-- One turn of the loop on a tag that is not the end tag: the tag has at
least 3 words and the loop goes on with a well-formed slice that is shorter by
the length of the tag. -/
theorem decodeTags_step (b : Slice) (acc : List Tag) (t : Tag) (hwf : b.WF)
    (hr : ReadTag b = .ok t) (he : t.IsEnd = false) :
    3 ≤ t.len ∧ ∃ b', b.sliceFrom t.len = some b' ∧ b'.WF ∧ b'.len + t.len = b.len ∧
      decodeTags b acc = decodeTags b' (acc ++ [t]) := by
  have hwf' : b.len ≤ b.data.length := hwf
  rcases ReadTag_ok b t hr with ⟨_, ht⟩ | ⟨_, c, _, hlen, _, ht⟩
  · subst ht
    exact absurd he (by decide)
  · subst ht
    have hs : b.sliceFrom (3 + c / 4) =
        some ⟨b.data.drop (3 + c / 4), b.len - (3 + c / 4)⟩ := by
      simp [Slice.sliceFrom, Slice.slice, Slice.cap, hlen, hwf']
    refine ⟨by show 3 ≤ 3 + c / 4; omega, _, hs, ?_, ?_, decodeTags_of_tag b _ acc _ hr he hs⟩
    · show b.len - (3 + c / 4) ≤ (b.data.drop (3 + c / 4)).length
      rw [List.length_drop]
      omega
    · show b.len - (3 + c / 4) + (3 + c / 4) = b.len
      omega

/-- On a well-formed slice the loop ends, with tags that each took at least 3
words before a word for the end marker, or with the error of `ReadTag`. -/
theorem decodeTags_total (n : Nat) : ∀ (b : Slice) (acc : List Tag), b.WF → b.len ≤ n →
    (∃ new, decodeTags b acc = .ok (acc ++ new) ∧ 3 * new.length + 1 ≤ b.len) ∨
      decodeTags b acc = .error .tagBufferTooSmall := by
  induction n with
  | zero =>
    intro b acc hwf hn
    rcases ReadTag_cases b hwf with ⟨h0, _⟩ | he | ⟨c, _, _, hlen, _⟩
    · unfold Slice.index at h0
      split at h0
      · omega
      · cases h0
    · exact Or.inr (decodeTags_of_error b acc _ he)
    · omega
  | succ n ih =>
    intro b acc hwf hn
    rcases ReadTag_cases b hwf with ⟨h0, hr⟩ | he | ⟨c, _, hc, hlen, hr⟩
    · left
      refine ⟨[], ?_, ?_⟩
      · rw [List.append_nil]
        exact decodeTags_of_end b acc EndTag hr (by decide)
      · unfold Slice.index at h0
        split at h0
        · simp only [List.length_nil]
          omega
        · cases h0
    · exact Or.inr (decodeTags_of_error b acc _ he)
    · have hwf' : b.len ≤ b.data.length := hwf
      obtain ⟨_, hend, _, _⟩ := cut_tag_valid b c hc (by omega)
      obtain ⟨h3, b', _, hwfb', hlenb', hdec⟩ := decodeTags_step b acc _ hwf hr hend
      have hlt : (3 + c / 4) + b'.len = b.len := by
        have : b'.len + (3 + c / 4) = b.len := hlenb'
        omega
      rcases ih b' (acc ++ [⟨b.data, 3 + c / 4⟩]) hwfb' (by omega) with ⟨new, hok, hbound⟩ | herr
      · left
        refine ⟨⟨b.data, 3 + c / 4⟩ :: new, ?_, ?_⟩
        · rw [hdec, hok]
          simp
        · simp only [List.length_cons]
          omega
      · right
        rw [hdec, herr]

/-- C19: the decode loop of `Do` terminates on every word slice: it returns
tags, each of which took at least 3 words, or the error of `ReadTag`; a tag
that is not the end tag has at least 3 words and the loop goes on with a
slice shorter by that tag.  When the slice has run out at a tag boundary the
loop returns the error and none of the tags read so far, as on a body that is
exactly one well-sized tag with nothing after it. -/
theorem decodeTags_terminates (b : Slice) (acc : List Tag) (hwf : b.WF) :
    ((∃ new, decodeTags b acc = .ok (acc ++ new) ∧ 3 * new.length + 1 ≤ b.len) ∨
        decodeTags b acc = .error .tagBufferTooSmall) ∧
      (∀ t, ReadTag b = .ok t → t.IsEnd = false →
        3 ≤ t.len ∧ ∃ b', b.sliceFrom t.len = some b' ∧ b'.WF ∧ b'.len + t.len = b.len ∧
          decodeTags b acc = decodeTags b' (acc ++ [t])) ∧
      (b.len = 0 → decodeTags b acc = .error .tagBufferTooSmall) ∧
      (∀ t, ReadTag b = .ok t → t.IsEnd = false → t.len = b.len →
        decodeTags b acc = .error .tagBufferTooSmall) ∧
      decodeTags (Slice.ofList [1, 4, 0x80000004, 7]) [] = .error .tagBufferTooSmall := by
  have hzero : ∀ (b0 : Slice) (acc0 : List Tag), b0.WF → b0.len = 0 →
      decodeTags b0 acc0 = .error .tagBufferTooSmall := by
    intro b0 acc0 hwf0 h0
    rcases decodeTags_total b0.len b0 acc0 hwf0 (Nat.le_refl _) with ⟨new, _, hbound⟩ | herr
    · omega
    · exact herr
  have hwhole : ∀ (b0 : Slice) (acc0 : List Tag) (t : Tag), b0.WF → ReadTag b0 = .ok t →
      t.IsEnd = false → t.len = b0.len → decodeTags b0 acc0 = .error .tagBufferTooSmall := by
    intro b0 acc0 t hwf0 hr he hlen
    obtain ⟨_, b', _, hwfb', hlenb', hdec⟩ := decodeTags_step b0 acc0 t hwf0 hr he
    rw [hdec]
    exact hzero b' _ hwfb' (by omega)
  refine ⟨decodeTags_total b.len b acc hwf (Nat.le_refl _),
    fun t hr he => decodeTags_step b acc t hwf hr he, hzero b acc hwf,
    fun t hr he hlen => hwhole b acc t hwf hr he hlen, ?_⟩
  exact hwhole (Slice.ofList [1, 4, 0x80000004, 7]) [] (Slice.ofList [1, 4, 0x80000004, 7])
    (by decide) (by decide) (by decide) (by decide)

/-- Two tags with nothing after them: the loop reads the first, then the
second, and returns the error. -/
theorem decodeTags_terminates_witness :
    (Slice.ofList [1, 4, 0x80000004, 7, 2, 0, 0x80000000]).WF ∧
      ReadTag (Slice.ofList [1, 4, 0x80000004, 7, 2, 0, 0x80000000]) =
        .ok ⟨[1, 4, 0x80000004, 7, 2, 0, 0x80000000], 4⟩ ∧
      decodeTags (Slice.ofList [1, 4, 0x80000004, 7, 2, 0, 0x80000000]) [] =
        decodeTags ⟨[2, 0, 0x80000000], 3⟩ [⟨[1, 4, 0x80000004, 7, 2, 0, 0x80000000], 4⟩] ∧
      decodeTags ⟨[2, 0, 0x80000000], 3⟩ [⟨[1, 4, 0x80000004, 7, 2, 0, 0x80000000], 4⟩] =
        .error .tagBufferTooSmall := by
  have h1 := (decodeTags_terminates (Slice.ofList [1, 4, 0x80000004, 7, 2, 0, 0x80000000]) []
    (by decide)).2.1 ⟨[1, 4, 0x80000004, 7, 2, 0, 0x80000000], 4⟩ (by decide) (by decide)
  obtain ⟨_, b', hb', _, _, hdec⟩ := h1
  have e : Slice.sliceFrom (Slice.ofList [1, 4, 0x80000004, 7, 2, 0, 0x80000000]) 4 =
      some ⟨[2, 0, 0x80000000], 3⟩ := by decide
  rw [show Slice.len ⟨[1, 4, 0x80000004, 7, 2, 0, 0x80000000], 4⟩ = 4 from rfl, e] at hb'
  cases hb'
  refine ⟨by decide, by decide, hdec, ?_⟩
  exact (decodeTags_terminates ⟨[2, 0, 0x80000000], 3⟩
    [⟨[1, 4, 0x80000004, 7, 2, 0, 0x80000000], 4⟩] (by decide)).2.2.2.1
    ⟨[2, 0, 0x80000000], 3⟩ (by decide) (by decide) (by decide)

/-! ## Totality of the accessors -/

/-- On a well-formed slice `IsValid` returns without a panic. -/
theorem IsValid_total (t : Tag) (hwf : t.WF) : ∃ v, t.IsValid = some v := by
  unfold Tag.IsValid
  split
  · exact ⟨false, rfl⟩
  · split
    · exact ⟨t.IsEnd, rfl⟩
    · split
      · exact ⟨false, rfl⟩
      · obtain ⟨c, hc, _⟩ := index_of_WF t hwf 1 (by omega)
        rw [hc]
        by_cases h : t.len = 3 + c / 4
        · exact ⟨true, by simp [h]⟩
        · exact ⟨false, by simp [h]⟩

/-- A tag that is not valid has `ID`, `Cap` and `Len` 0, is no response and
has the nil value. -/
theorem accessors_of_not_valid (t : Tag) (hv : t.IsValid = some false) :
    t.ID = some 0 ∧ t.Cap = some 0 ∧ t.Len = some 0 ∧ t.IsResponse = some false ∧
      t.Value = some Slice.nil := by
  simp [Tag.ID, Tag.Cap, Tag.Len, Tag.IsResponse, Tag.Value, hv]

/-- On a well-formed slice other than the end tag, `ID`, `Cap`, `IsResponse`
and `Len` return without a panic. -/
theorem accessors_total_of_not_end (t : Tag) (hwf : t.WF) (he : t.IsEnd = false) :
    (∃ a, t.ID = some a) ∧ (∃ c, t.Cap = some c) ∧ (∃ r, t.IsResponse = some r) ∧
      ∃ n, t.Len = some n := by
  obtain ⟨v, hv⟩ := IsValid_total t hwf
  cases v with
  | false =>
    obtain ⟨h1, h2, h3, h4, _⟩ := accessors_of_not_valid t hv
    exact ⟨⟨0, h1⟩, ⟨0, h2⟩, ⟨false, h4⟩, ⟨0, h3⟩⟩
  | true =>
    have h3 : 3 ≤ t.len := by
      unfold Tag.IsValid at hv
      split at hv
      · cases hv
      · split at hv
        · rw [he] at hv
          cases hv
        · split at hv
          · cases hv
          · omega
    obtain ⟨a, b, c, _, _, _, _, hid, hcap, hresp, hlen⟩ := accessors_of_valid t hwf hv h3
    exact ⟨⟨a, hid⟩, ⟨b, hcap⟩, ⟨_, hresp⟩, ⟨_, hlen⟩⟩

/-- C21 (fails on the code): the end tag `[0]`, which `ReadTag` returns, has
one word and `IsValid()` holds for it, so the accessors go past their guard:
`ID()` returns 0, but `Cap()` reads `t[1]` and `IsResponse()` reads `t[2]` of a
slice of length 1 and panic, and `Len()` and `Value()`, which call
`IsResponse()`, panic with it.  The invalid slices (nil, two words, wrong
size) do give 0, 0, 0, false and the nil value. -/
theorem accessors_panic_on_EndTag :
    EndTag = Slice.ofList [0] ∧ ReadTag (Slice.ofList [0, 7]) = .ok EndTag ∧
      Tag.IsValid EndTag = some true ∧ Tag.ID EndTag = some 0 ∧ Tag.Cap EndTag = none ∧
      Tag.IsResponse EndTag = none ∧ Tag.Len EndTag = none ∧ Tag.Value EndTag = none ∧
      Tag.IsValid Slice.nil = some false ∧ Tag.Cap Slice.nil = some 0 ∧
      Tag.IsValid (Slice.ofList [1, 4]) = some false ∧
      Tag.Cap (Slice.ofList [1, 4]) = some 0 ∧
      Tag.IsValid (Slice.ofList [1, 8, 0, 7]) = some false ∧
      Tag.Value (Slice.ofList [1, 8, 0, 7]) = some Slice.nil := by
  decide

end Mbox
